import Mathlib

/-!
Verification development for the naologic-erp reflow engine.

The TypeScript sources embedded here:
  - src/utils/date-utils.ts        (calendar arithmetic over luxon DateTimes)
  - src/reflow/contraint-checker.ts (predicates, cycle detection, validator)
  - src/reflow/reflow.service.ts   (the reflow driver)

Modelling choices, documented once:

* Instants. All code paths parse ISO strings with zone utc and compare the
  resulting luxon DateTimes. We model an instant as a number of minutes since
  an epoch placed at a Sunday midnight (concretely 2023-12-31T00:00Z, a
  Sunday), so that the source expression (dt.weekday % 7) -- luxon ISO
  weekday Mon=1..Sun=7 taken mod 7, i.e. Sun=0, Mon=1, .., Sat=6 -- becomes
  (t / 1440) % 7. startOf(day), set(hour), plus(days/minutes) and
  diff(minutes) are exact integer arithmetic in UTC (no DST).

* Strings versus instants. The work-order date fields are ISO strings; the
  driver parses them at each use and compares the parsed instants, except for
  the change-detection test which compares the raw strings with a strict
  string inequality. We model a date field as a pair of the carried string
  and the instant it parses to (DateStr). Re-serialisation (luxon toISO of a
  utc DateTime) is a fixed canonical formatter of the instant, modelled by
  canonIso below, which emits the luxon shape YYYY-MM-DDTHH:MM:SS.mmmZ. An
  input string such as 2024-01-01T09:00:00Z parses to the same instant as
  the emitted 2024-01-01T09:00:00.000Z but differs from it as a string.

* Recursion. getNextAvailableTime is recursive with no bound in the source
  (a runaway recursion crashes the process); we give it explicit fuel and
  map fuel exhaustion to the error outcome, like the thrown errors. The
  other loops carry the iteration caps of the source (10000 for the duration
  projection, 100 for the conflict resolver, N*100 for the driver).

* Aliasing. The driver mutates work-order objects shared between its queue,
  the per-machine input snapshot and the growing schedule. We model the
  object heap as the input list addressed by position; every collection
  holds positions, and reads go through the current heap.
-/

namespace NaoErp

/- An instant is a Nat: minutes since the epoch 2023-12-31T00:00Z (a Sunday). -/
/-- Day index since the epoch. -/
def dayIndex (t : Nat) : Nat := t / 1440

/-- Minutes elapsed since the start of the day of t. -/
def minuteOfDay (t : Nat) : Nat := t % 1440

/-- The source expression current.weekday % 7 (Sun=0, Mon=1, .., Sat=6). -/
def weekdayMod7 (t : Nat) : Nat := (t / 1440) % 7

/-- startOf(day) on the day of t. -/
def startOfDay (t : Nat) : Nat := 1440 * (t / 1440)

/-- plus(days 1).startOf(day): the midnight after the day of t. -/
def nextDayStart (t : Nat) : Nat := startOfDay t + 1440

/-- set(hour h, minute 0, second 0) on the day of t. -/
def setHour (t : Nat) (h : Nat) : Nat := startOfDay t + h * 60

/-- Two decimal digits with a leading zero. -/
def pad2 (n : Nat) : String := if n < 10 then "0" ++ toString n else toString n

/-- Four decimal digits with leading zeros. -/
def pad4 (n : Nat) : String :=
  if n < 10 then "000" ++ toString n
  else if n < 100 then "00" ++ toString n
  else if n < 1000 then "0" ++ toString n
  else toString n

/-- Gregorian date from a count of days since 1970-01-01 (civil-from-days). -/
def civilFromDays (z : Nat) : Nat × Nat × Nat :=
  let w := z + 719468
  let era := w / 146097
  let doe := w % 146097
  let yoe := (doe - doe / 1460 + doe / 36524 - doe / 146096) / 365
  let doy := doe - (365 * yoe + yoe / 4 - yoe / 100)
  let mp := (5 * doy + 2) / 153
  let d := doy - (153 * mp + 2) / 5 + 1
  let m := if mp < 10 then mp + 3 else mp - 9
  (yoe + era * 400 + (if m ≤ 2 then 1 else 0), m, d)

/-- The canonical serialisation of an instant: what luxon toISO emits for a
utc DateTime at minute resolution (seconds and milliseconds zero). The epoch
day 2023-12-31 is unix day 19722. -/
def canonIso (t : Nat) : String :=
  let c := civilFromDays (t / 1440 + 19722)
  pad4 c.1 ++ "-" ++ pad2 c.2.1 ++ "-" ++ pad2 c.2.2 ++ "T" ++
    pad2 (t % 1440 / 60) ++ ":" ++ pad2 (t % 60) ++ ":00.000Z"

/-- An ISO date-time field: the carried string plus the instant it parses
to. DateTime.fromISO reads .instant; the strict string comparison in the
driver reads .repr. -/
structure DateStr where
  repr : String
  instant : Nat
deriving DecidableEq, Repr

/-- Re-serialisation: toISO of a parsed instant yields the canonical string. -/
def canonDS (t : Nat) : DateStr := ⟨canonIso t, t⟩

/-- A shift of a work center (types.ts). -/
structure Shift where
  dayOfWeek : Nat
  startHour : Nat
  endHour : Nat
deriving DecidableEq, Repr

/-- A maintenance window of a work center (types.ts). -/
structure MaintenanceWindow where
  startDate : DateStr
  endDate : DateStr
  reason : Option String := none
deriving DecidableEq, Repr

/-- Work-center payload (types.ts). -/
structure WCData where
  name : String
  shifts : List Shift
  maintenanceWindows : List MaintenanceWindow
deriving DecidableEq, Repr

/-- A work center (types.ts). -/
structure WorkCenter where
  docId : String
  data : WCData
deriving DecidableEq, Repr

/-- Work-order payload (types.ts). -/
structure WOData where
  workOrderNumber : String
  manufacturingOrderId : String
  workCenterId : String
  startDate : DateStr
  endDate : DateStr
  durationMinutes : Nat
  isMaintenance : Bool
  dependsOnWorkOrderIds : List String
deriving DecidableEq, Repr

/-- A work order (types.ts). -/
structure WorkOrder where
  docId : String
  data : WOData
deriving DecidableEq, Repr

/-- A schedule-change audit entry (types.ts). -/
structure ScheduleChange where
  workOrderId : String
  workOrderNumber : String
  oldStart : DateStr
  oldEnd : DateStr
  newStart : DateStr
  newEnd : DateStr
  delayMinutes : Int
  reason : String
deriving DecidableEq, Repr

/-- The result record of reflow (types.ts); errors is an optional field. -/
structure ReflowResult where
  success : Bool
  updatedWorkOrders : List (String × List WorkOrder)
  changes : List ScheduleChange
  explanation : String
  errors : Option (List String)
deriving DecidableEq, Repr

/-! ## date-utils.ts -/

/-- getShiftForDay: the first shift whose dayOfWeek matches, or none. -/
def getShiftForDay (dayOfWeek : Nat) (workCenter : WorkCenter) : Option Shift :=
  workCenter.data.shifts.find? (fun s => s.dayOfWeek == dayOfWeek)

/-- isInMaintenanceWindow on the parsed instant: some window has
start ≤ t < end. -/
def isInMaintenanceWindowT (t : Nat) (workCenter : WorkCenter) : Bool :=
  workCenter.data.maintenanceWindows.any
    (fun w => decide (w.startDate.instant ≤ t) && decide (t < w.endDate.instant))

/-- getNextAvailableTime on instants, with explicit recursion fuel (the
source recurses with no bound over days that have no shift). One call: leave
the maintenance window containing t if any, then either recurse from the
next midnight when the weekday has no shift, or snap forward to the shift
start. The result is not re-checked against maintenance windows. -/
def nextAvailT : Nat → Nat → WorkCenter → Option Nat
  | 0, _, _ => none
  | fuel + 1, t, workCenter =>
    let cur :=
      match workCenter.data.maintenanceWindows.find?
          (fun w => decide (w.startDate.instant ≤ t) && decide (t < w.endDate.instant)) with
      | some w => w.endDate.instant
      | none => t
    match getShiftForDay (weekdayMod7 cur) workCenter with
    | none => nextAvailT fuel (nextDayStart cur) workCenter
    | some s =>
      let shiftStart := setHour cur s.startHour
      some (if cur < shiftStart then shiftStart else cur)

/-- Call-stack allowance for the un-bounded recursion of the source; running
out models the crash of a runaway recursion. -/
def navFuel : Nat := 100000

/-- getNextAvailableTime on date strings: parse, compute, re-serialise. -/
def getNextAvailableTime (date : DateStr) (workCenter : WorkCenter) : Option DateStr :=
  (nextAvailT navFuel date.instant workCenter).map canonDS

/-- One pass of the calculateEndDateWithShifts loop, on instants. startT is
the instant of the parsed startDate: the source computes currentIsoTime from
it once, before the loop, and never updates it, so the maintenance test and
the jump target inside the loop always use startT, not current. Fuel is the
10000-iteration safety bound; the source throws when the loop exits with
iterations ≥ maxIterations, which happens exactly when fuel runs out. -/
def calcEndLoop (workCenter : WorkCenter) (startT : Nat) :
    Nat → Nat → Nat → Option Nat
  | 0, _, _ => none
  | _ + 1, current, 0 => some current
  | fuel + 1, current, remaining + 1 =>
    if isInMaintenanceWindowT startT workCenter then
      match nextAvailT navFuel startT workCenter with
      | none => none
      | some na => calcEndLoop workCenter startT fuel na (remaining + 1)
    else
      match getShiftForDay (weekdayMod7 current) workCenter with
      | none => calcEndLoop workCenter startT fuel (nextDayStart current) (remaining + 1)
      | some s =>
        let shiftStart := setHour current s.startHour
        let shiftEnd := setHour current s.endHour
        if current < shiftStart then
          calcEndLoop workCenter startT fuel shiftStart (remaining + 1)
        else if shiftEnd ≤ current then
          calcEndLoop workCenter startT fuel (nextDayStart current) (remaining + 1)
        else
          let minutesToWork := min (remaining + 1) (shiftEnd - current)
          let current2 := current + minutesToWork
          let remaining2 := remaining + 1 - minutesToWork
          if 0 < remaining2 && decide (shiftEnd ≤ current2) then
            calcEndLoop workCenter startT fuel (nextDayStart current2) remaining2
          else
            calcEndLoop workCenter startT fuel current2 remaining2

/-- calculateEndDateWithShifts on instants: project durationMinutes of
working time forward from startT (none models the thrown infinite-loop
error). -/
def calcEndT (startT : Nat) (durationMinutes : Nat) (workCenter : WorkCenter) : Option Nat :=
  calcEndLoop workCenter startT 10000 startT durationMinutes

/-- calculateEndDateWithShifts: parse the startDate of the work order,
project its duration, re-serialise. -/
def calculateEndDateWithShifts (workOrder : WorkOrder) (workCenter : WorkCenter) :
    Option DateStr :=
  (calcEndT workOrder.data.startDate.instant workOrder.data.durationMinutes workCenter).map
    canonDS

/-- getMinutesDiff: signed minutes from start to end. -/
def getMinutesDiff (start finish : Nat) : Int := (finish : Int) - (start : Int)

/-! ## contraint-checker.ts -/

/-- hasWorkCenterConflict: same work center and overlapping half-open
intervals (start1 < end2 and end1 > start2), compared on parsed instants. -/
def hasWorkCenterConflict (wo1 wo2 : WorkOrder) : Bool :=
  wo1.data.workCenterId == wo2.data.workCenterId &&
    decide (wo1.data.startDate.instant < wo2.data.endDate.instant) &&
    decide (wo2.data.startDate.instant < wo1.data.endDate.instant)

/-- areDependenciesSatisfied: every dependency id resolves in the pool and
its end is at or before this start. -/
def areDependenciesSatisfied (workOrder : WorkOrder) (allWorkOrders : List WorkOrder) : Bool :=
  workOrder.data.dependsOnWorkOrderIds.all (fun depId =>
    match allWorkOrders.find? (fun wo => wo.docId == depId) with
    | none => false
    | some dep => decide (dep.data.endDate.instant ≤ workOrder.data.startDate.instant))

/-- The woMap lookup of detectCircularDependencies: a JS Map built from the
work orders in order, so a duplicate docId keeps the last entry. -/
def woMapGet (workOrders : List WorkOrder) (woId : String) : Option WorkOrder :=
  workOrders.reverse.find? (fun wo => wo.docId == woId)

/-- The error string pushed on re-entering a node of the recursion stack. -/
def circErrString (l : List String) : String :=
  "Circular dependency detected: " ++ String.intercalate " → " l

/-- One level of the DFS of detectCircularDependencies: process the ids
pending at the current depth. A node already on the current call path
records one cycle error; a visited node is skipped; otherwise the
dependencies of the node are explored by the supplied one-level-deeper
function and the node is then marked visited. -/
def dfsStep (workOrders : List WorkOrder)
    (deeper : List String → List String → List String × List String →
      Option (List String × List String)) :
    List String → List String → List String × List String →
    Option (List String × List String)
  | [], _, st => some st
  | woId :: rest, path, (visited, errors) =>
    if path.contains woId then
      dfsStep workOrders deeper rest path
        (visited, errors ++ [circErrString (path ++ [woId])])
    else if visited.contains woId then
      dfsStep workOrders deeper rest path (visited, errors)
    else
      let deps :=
        match woMapGet workOrders woId with
        | some wo => wo.data.dependsOnWorkOrderIds
        | none => []
      match deeper deps (path ++ [woId]) (visited, errors) with
      | none => none
      | some st2 => dfsStep workOrders deeper rest path (st2.1 ++ [woId], st2.2)

/-- The DFS of detectCircularDependencies. The source keeps a recursion
stack set whose adds and deletes are balanced around each call, so the set
always equals the set of ids on the current call path; we carry that path
directly. Fuel bounds the recursion depth (the source recursion is bounded
by the number of distinct ids, proved below). -/
def dfsL (workOrders : List WorkOrder) :
    Nat → List String → List String → List String × List String →
    Option (List String × List String)
  | 0, ids, _, st => match ids with | [] => some st | _ :: _ => none
  | fuel + 1, ids, path, st =>
    dfsStep workOrders (dfsL workOrders fuel) ids path st

/-- Every id the DFS can be called on: the docIds plus every listed
dependency id. -/
def allIds (workOrders : List WorkOrder) : List String :=
  workOrders.map (fun wo => wo.docId) ++
    workOrders.foldr (fun wo acc => wo.data.dependsOnWorkOrderIds ++ acc) []

/-- detectCircularDependencies: run the DFS from every work order in input
order and collect the cycle error strings. The fuel is one more than the
number of candidate ids, which the depth never reaches (dfsL_isSome below). -/
def detectCircularDependencies (workOrders : List WorkOrder) : List String :=
  match dfsL workOrders ((allIds workOrders).length + 1)
      (workOrders.map (fun wo => wo.docId)) [] ([], []) with
  | some (_, errors) => errors
  | none => []

/-- Concatenation of the lists produced per element, in order (the push
accumulation of the source loops). -/
def listFlat (f : α → List β) : List α → List β
  | [] => []
  | x :: xs => f x ++ listFlat f xs

/-- The machine-conflict list computed for one work order by
validateSchedule: the other orders of the same machine group whose intervals
overlap it. -/
def conflictsOf (wo : WorkOrder) (workOrders : List WorkOrder) : List WorkOrder :=
  workOrders.filter (fun other =>
    !(other.docId == wo.docId) && hasWorkCenterConflict wo other)

/-- The maintenance-overlap errors for one work order. -/
def maintErrors (workCenters : List WorkCenter) (wo : WorkOrder) : List String :=
  match workCenters.find? (fun wc => wc.docId == wo.data.workCenterId) with
  | none => []
  | some wc =>
    listFlat (fun mw =>
      if wo.data.startDate.instant < mw.endDate.instant ∧
          mw.startDate.instant < wo.data.endDate.instant then
        ["Work order " ++ wo.docId ++ " conflicts with maintenance window on " ++
          wc.data.name]
      else []) wc.data.maintenanceWindows

/-- The errors validateSchedule accumulates for one work order of a machine
group: unsatisfied dependencies, machine conflicts, maintenance overlaps. -/
def woErrors (workCenters : List WorkCenter) (pool : List WorkOrder) (wo : WorkOrder) :
    List String :=
  (if areDependenciesSatisfied wo pool then []
    else ["Work order " ++ wo.docId ++ " starts before dependencies complete"]) ++
  (match conflictsOf wo pool with
    | [] => []
    | cs => ["Work order " ++ wo.docId ++ " conflicts with " ++
        String.intercalate ", " (cs.map (fun c => c.docId)) ++ " on work center " ++
        wo.data.workCenterId]) ++
  maintErrors workCenters wo

/-- The errors validateSchedule accumulates for one machine group. -/
def machineErrors (workCenters : List WorkCenter) (p : String × List WorkOrder) :
    List String :=
  detectCircularDependencies p.2 ++ listFlat (woErrors workCenters p.2) p.2

/-- All errors accumulated by validateSchedule over the schedule map. -/
def validateErrors (schedule : List (String × List WorkOrder))
    (workCenters : List WorkCenter) : List String :=
  listFlat (machineErrors workCenters) schedule

/-- validateSchedule: valid iff no error was accumulated. -/
def validateSchedule (schedule : List (String × List WorkOrder))
    (workCenters : List WorkCenter) : Bool × List String :=
  let errors := validateErrors schedule workCenters
  (errors.isEmpty, errors)

/-! ## reflow.service.ts

The service mutates work-order objects shared by this.workOrders, the
workingOrders queue, this.workCenterSchedules and this.schedule. The heap of
objects is the input list addressed by position; the queue, the per-machine
snapshot and the schedule hold positions; reads resolve positions through
the current heap. -/

/-- A placeholder object for out-of-range positions (never reached: every
position stored anywhere is an index into the input list). -/
def dummyWo : WorkOrder := ⟨"", ⟨"", "", "", ⟨"", 0⟩, ⟨"", 0⟩, 0, false, []⟩⟩

/-- The mutable state of one reflow call: the object heap, this.schedule
(machine id to placed positions, keys in first-touch order) and the change
log. -/
structure RState where
  heap : List WorkOrder
  schedule : List (String × List Nat)
  changes : List ScheduleChange
deriving Repr

/-- Read the object at a position of the heap. -/
def heapAt (st : RState) (i : Nat) : WorkOrder := st.heap.getD i dummyWo

/-- First value stored under a key of an association list. -/
def lookupA (l : List (String × α)) (k : String) : Option α :=
  (l.find? (fun p => p.1 == k)).map (fun p => p.2)

/-- this.schedule[wcId] after the hasOwn initialisation (always a list). -/
def scheduledOn (st : RState) (wcId : String) : List Nat :=
  (lookupA st.schedule wcId).getD []

/-- The hasOwn check of the driver: create the key with an empty list on
first touch. -/
def ensureKey (st : RState) (wcId : String) : RState :=
  if (st.schedule.find? (fun p => p.1 == wcId)).isSome then st
  else { st with schedule := st.schedule ++ [(wcId, [])] }

/-- Append v to the list stored under key k (the key is present). -/
def pushA (l : List (String × List Nat)) (k : String) (v : Nat) :
    List (String × List Nat) :=
  l.map (fun p => if p.1 == k then (p.1, p.2 ++ [v]) else p)

/-- addToWorkCenterSchedule: push the position under the work center of the
order unless an order of the same docId is already there. -/
def addToWorkCenterSchedule (st : RState) (i : Nat) : RState :=
  let wcId := (heapAt st i).data.workCenterId
  let wId := (heapAt st i).docId
  if (scheduledOn st wcId).any (fun j => (heapAt st j).docId == wId) then st
  else { st with schedule := pushA st.schedule wcId i }

/-- Overwrite startDate and endDate of the object at position i. -/
def updateDates (st : RState) (i : Nat) (newStart newEnd : DateStr) : RState :=
  let wo := heapAt st i
  let wo2 := { wo with data := { wo.data with startDate := newStart, endDate := newEnd } }
  { st with heap := st.heap.set i wo2 }

/-- getEarliestStartAfterDependencies on instants: the max of this start and
the ends of the dependencies found in the machine snapshot (current heap
data). -/
def earliestAfterDeps (st : RState) (pool : List Nat) (i : Nat) : Nat :=
  (heapAt st i).data.dependsOnWorkOrderIds.foldl (fun latest depId =>
    match pool.find? (fun j => (heapAt st j).docId == depId) with
    | some j =>
      let depEnd := (heapAt st j).data.endDate.instant
      if latest < depEnd then depEnd else latest
    | none => latest) (heapAt st i).data.startDate.instant

/-- One tempWo of the conflict resolver: the order with a candidate start
and the projected end (both re-serialised strings in the source). -/
def tempOrder (wo : WorkOrder) (startT endT : Nat) : WorkOrder :=
  { wo with data := { wo.data with startDate := canonDS startT, endDate := canonDS endT } }

/-- resolveWorkCenterConflict, bounded by 100 attempts. Each attempt
projects the end from the startDate still stored on the order (not from the
candidate start), collects the conflicting snapshot orders, and on conflict
moves the candidate to the next available time after the latest conflicting
end. Errors model the thrown exceptions. -/
def resolveLoop (workCenter : WorkCenter) (st : RState) (pool : List Nat) (i : Nat) :
    Nat → Nat → Except String Nat
  | 0, _ => .error ("Could not resolve work center conflict for " ++
      (heapAt st i).docId ++ " after 100 attempts")
  | attempts + 1, currentStart =>
    match calcEndT (heapAt st i).data.startDate.instant
        (heapAt st i).data.durationMinutes workCenter with
    | none => .error ("Infinite loop detected in date calculation")
    | some proposedEnd =>
      let tempWo := tempOrder (heapAt st i) currentStart proposedEnd
      let conflicting := pool.filter (fun j => hasWorkCenterConflict tempWo (heapAt st j))
      if conflicting.isEmpty then .ok currentStart
      else
        let latestConflictEnd := conflicting.foldl (fun latest j =>
          let woEnd := (heapAt st j).data.endDate.instant
          if latest < woEnd then woEnd else latest) currentStart
        match nextAvailT navFuel latestConflictEnd workCenter with
        | none => .error ("Maximum call stack size exceeded")
        | some ns => resolveLoop workCenter st pool i attempts ns

/-- determineChangeReason: dependency delays (new dependency end after the
original start), else a work-center conflict if the machine group has other
orders, else the shift-or-maintenance fallback. -/
def determineChangeReason (st : RState) (i : Nat) (oldWo : WorkOrder)
    (groupIdx : List Nat) : String :=
  let newWo := heapAt st i
  let reasons := listFlat (fun depId =>
    match groupIdx.find? (fun j => (heapAt st j).docId == depId) with
    | some j =>
      if oldWo.data.startDate.instant < (heapAt st j).data.endDate.instant then
        ["Dependency " ++ depId ++ " delayed"]
      else []
    | none => []) newWo.data.dependsOnWorkOrderIds
  let sameWcOrders := groupIdx.filter (fun j =>
    (heapAt st j).data.workCenterId == newWo.data.workCenterId &&
      !((heapAt st j).docId == newWo.docId))
  let reasons2 :=
    if reasons.isEmpty && !sameWcOrders.isEmpty then ["Work center conflict"] else reasons
  let reasons3 := if reasons2.isEmpty then ["Shift or maintenance constraint"] else reasons2
  String.intercalate "; " reasons3

/-- The dependency scan of one worklist iteration: a dependency already
placed on the machine of the order is skipped; otherwise its position in the
input array is collected, and a dependency resolving to no work order is the
thrown error. -/
def collectStep (st1 : RState) (machineList : List Nat) (order : WorkOrder)
    (acc : Except String (List Nat)) (depId : String) : Except String (List Nat) :=
  match acc with
  | .error e => .error e
  | .ok l =>
    if machineList.any (fun j => (heapAt st1 j).docId == depId) then .ok l
    else
      match (List.range st1.heap.length).find?
          (fun j => (heapAt st1 j).docId == depId) with
      | some j => .ok (l ++ [j])
      | none => .error ("Dependency " ++ depId ++ " not found for work order " ++
          order.docId)

def collectUnprocessed (st1 : RState) (machineList : List Nat) (order : WorkOrder) :
    Except String (List Nat) :=
  order.data.dependsOnWorkOrderIds.foldl (collectStep st1 machineList order) (.ok [])

/-- The placement tail of one worklist iteration for a non-maintenance order
whose dependencies are all placed: find the work center, compute the new
start (dependency max, shift snap, conflict resolution), project the new end
from the startDate still stored on the order, overwrite the dates, add to
the schedule, and log a change when the serialised strings changed. -/
def placeOrder (workCenters : List WorkCenter) (wcSched : List (String × List Nat))
    (st1 : RState) (i : Nat) (order : WorkOrder) : Except String RState :=
  match workCenters.find? (fun wc => wc.docId == order.data.workCenterId) with
  | none => .error ("Work center " ++ order.data.workCenterId ++ " not found")
  | some workCenter =>
    let pool := (lookupA wcSched workCenter.docId).getD []
    let depStart := earliestAfterDeps st1 pool i
    match nextAvailT navFuel depStart workCenter with
    | none => .error ("Maximum call stack size exceeded")
    | some snapped =>
      match resolveLoop workCenter st1 pool i 100 snapped with
      | .error e => .error e
      | .ok newStartT =>
        match calcEndT (heapAt st1 i).data.startDate.instant
            (heapAt st1 i).data.durationMinutes workCenter with
        | none => .error ("Infinite loop detected in date calculation")
        | some newEndT =>
          let newStart := canonDS newStartT
          let newEnd := canonDS newEndT
          let st2 := updateDates st1 i newStart newEnd
          let st3 := addToWorkCenterSchedule st2 i
          let changed := !(order.data.startDate.repr == newStart.repr) ||
            !(order.data.endDate.repr == newEnd.repr)
          let entry : ScheduleChange :=
            { workOrderId := order.docId
              workOrderNumber := order.data.workOrderNumber
              oldStart := order.data.startDate
              oldEnd := order.data.endDate
              newStart := newStart
              newEnd := newEnd
              delayMinutes :=
                max 0 (getMinutesDiff order.data.endDate.instant newEndT)
              reason := determineChangeReason st3 i order
                (scheduledOn st3 order.data.workCenterId) }
          .ok (if changed then { st3 with changes := st3.changes ++ [entry] } else st3)

/-- One worklist iteration on the head position i: the new state, plus the
unprocessed-dependency positions when the order must be requeued behind them
(none when the queue simply advances). -/
def reflowStep (workCenters : List WorkCenter) (wcSched : List (String × List Nat))
    (i : Nat) (st : RState) : Except String (RState × Option (List Nat)) :=
  let order := heapAt st i
  let st1 := ensureKey st order.data.workCenterId
  let machineList := scheduledOn st1 order.data.workCenterId
  if machineList.any (fun j => (heapAt st1 j).docId == order.docId) then
    .ok (st1, none)
  else
    match collectUnprocessed st1 machineList order with
    | .error e => .error e
    | .ok unproc =>
      if !unproc.isEmpty then .ok (st1, some unproc)
      else if order.data.isMaintenance then
        .ok (addToWorkCenterSchedule st1 i, none)
      else
        match placeOrder workCenters wcSched st1 i order with
        | .error e => .error e
        | .ok st4 => .ok (st4, none)

/-- The worklist loop of reflow. fuel is maxIterations minus processedCount;
the Bool of the result tells whether the loop exited with processedCount at
the cap (the source then discards the schedule). Errors model the thrown
exceptions. -/
def reflowLoop (workCenters : List WorkCenter) (wcSched : List (String × List Nat)) :
    Nat → List Nat → RState → Except String (RState × Bool)
  | 0, _, st => .ok (st, true)
  | _ + 1, [], st => .ok (st, false)
  | fuel + 1, i :: rest, st =>
    match reflowStep workCenters wcSched i st with
    | .error e => .error e
    | .ok (st2, none) => reflowLoop workCenters wcSched fuel rest st2
    | .ok (st2, some unproc) =>
      reflowLoop workCenters wcSched fuel (unproc ++ rest ++ [i]) st2

/-- Resolve the schedule positions through the final heap: the result holds
the mutated order objects themselves. -/
def resolveSchedule (st : RState) : List (String × List WorkOrder) :=
  st.schedule.map (fun p => (p.1, p.2.map (heapAt st)))

/-- generateExplanation. -/
def generateExplanation (changes : List ScheduleChange) (valid : Bool)
    (errors : List String) : String :=
  if !valid then "Schedule validation failed: " ++ String.intercalate "; " errors
  else if changes.isEmpty then "No changes required - schedule is already valid"
  else
    "Rescheduled " ++ toString changes.length ++ " work order(s) with total delay of " ++
      toString (changes.foldl (fun acc c => acc + c.delayMinutes) 0) ++
      " minutes. All constraints satisfied."

/-- The per-machine input snapshot this.workCenterSchedules: for each work
center, the positions of the input orders assigned to it, in input order. -/
def mkWcSched (workCenters : List WorkCenter) (workOrders : List WorkOrder) :
    List (String × List Nat) :=
  workCenters.map (fun wc => (wc.docId,
    (List.range workOrders.length).filter (fun i =>
      (workOrders.getD i dummyWo).data.workCenterId == wc.docId)))

/-- ReflowService.reflow. Errors model exceptions thrown out of the call;
ok results are the returned record. -/
def reflow (workCenters : List WorkCenter) (workOrders : List WorkOrder) :
    Except String ReflowResult :=
  let wcSched := mkWcSched workCenters workOrders
  if workOrders.isEmpty then
    .ok { success := false, updatedWorkOrders := [], changes := [],
          explanation := "Cannot reflow: no work orders were passed", errors := none }
  else
    let circularErrors := detectCircularDependencies workOrders
    if !circularErrors.isEmpty then
      .ok { success := false, updatedWorkOrders := [], changes := [],
            explanation := "Cannot reflow: circular dependencies detected",
            errors := some circularErrors }
    else
      match reflowLoop workCenters wcSched (workOrders.length * 100)
          (List.range workOrders.length) ⟨workOrders, [], []⟩ with
      | .error e => .error e
      | .ok (st, capped) =>
        if capped then
          .ok { success := false, updatedWorkOrders := [], changes := [],
                explanation :=
                  "Max iterations reached - possible infinite loop or circular dependency",
                errors := some ["Processing exceeded maximum iterations"] }
        else
          let resolved := resolveSchedule st
          let validation := validateSchedule resolved workCenters
          .ok { success := validation.1, updatedWorkOrders := resolved,
                changes := st.changes,
                explanation := generateExplanation st.changes validation.1 validation.2,
                errors := some validation.2 }

/-- success of an outcome (an uncaught exception is not a success). -/
def resultSuccess : Except String ReflowResult → Bool
  | .ok r => r.success
  | .error _ => false

/-- updatedWorkOrders of an outcome. -/
def resultUpdated : Except String ReflowResult → List (String × List WorkOrder)
  | .ok r => r.updatedWorkOrders
  | .error _ => []

/-- changes of an outcome. -/
def resultChanges : Except String ReflowResult → List ScheduleChange
  | .ok r => r.changes
  | .error _ => []

/-- The work orders of a result fed back into a second call: the machine
groups of updatedWorkOrders flattened in key order. -/
def flattenSchedule (schedule : List (String × List WorkOrder)) : List WorkOrder :=
  listFlat (fun p => p.2) schedule

/-- docId and placed interval instants of every order of every machine group
of a result. -/
def placedTimes (o : Except String ReflowResult) :
    List (String × List (String × Nat × Nat)) :=
  (resultUpdated o).map (fun p =>
    (p.1, p.2.map (fun w => (w.docId, w.data.startDate.instant, w.data.endDate.instant))))

/-! ## Concrete fixtures

Instants (minutes since 2023-12-31T00:00Z, a Sunday):
720 = Sun 2023-12-31 12:00Z, 1860 = Mon 2024-01-01 07:00Z,
1890 = Mon 07:30Z, 1920 = Mon 08:00Z, 1980 = Mon 09:00Z,
2040 = Mon 10:00Z, 2100 = Mon 11:00Z. -/

/-- A Mon-Fri 08:00-16:00 shift calendar. -/
def shiftsWeek : List Shift := [⟨1, 8, 16⟩, ⟨2, 8, 16⟩, ⟨3, 8, 16⟩, ⟨4, 8, 16⟩, ⟨5, 8, 16⟩]

/-- Machine M: Mon-Fri 08-16, no maintenance. -/
def wcMachine : WorkCenter := ⟨"M", ⟨"Machine M", shiftsWeek, []⟩⟩

/-- Machine M2: Mon-Fri 08-16, no maintenance. -/
def wcMachine2 : WorkCenter := ⟨"M2", ⟨"Machine M2", shiftsWeek, []⟩⟩

/-- Machine M with a maintenance window Mon 07:30Z-09:00Z. -/
def wcMaint : WorkCenter :=
  ⟨"M", ⟨"Machine M", shiftsWeek, [⟨canonDS 1890, canonDS 1980, none⟩]⟩⟩

/-- A work center with no shifts at all. -/
def wcNoShift : WorkCenter := ⟨"E", ⟨"Empty", [], []⟩⟩

/-- A 60-minute order on M at Mon 09:00Z-10:00Z with canonical date strings. -/
def mkOrder60 (id : String) (deps : List String) : WorkOrder :=
  ⟨id, ⟨"N" ++ id, "mo", "M", canonDS 1980, canonDS 2040, 60, false, deps⟩⟩

/-- First colliding order of the two-order scenario. -/
def woA2 : WorkOrder := mkOrder60 "A" []

/-- Second colliding order of the two-order scenario. -/
def woB2 : WorkOrder := mkOrder60 "B" []

/-- A single 60-minute order on M at Mon 09:00Z-10:00Z. -/
def woSingle : WorkOrder := mkOrder60 "A" []

/-- A zero-duration order on M at Sun 12:00Z (outside any shift). -/
def woZero : WorkOrder := ⟨"Z", ⟨"NZ", "mo", "M", canonDS 720, canonDS 720, 0, false, []⟩⟩

/-- A zero-duration order on M at Mon 09:00Z whose date strings carry the
common secondless ISO spelling, which parses to the same instant as the
canonical serialisation but differs from it as a string. -/
def woNonCanon : WorkOrder :=
  ⟨"W", ⟨"NW", "mo", "M", ⟨"2024-01-01T09:00:00Z", 1980⟩,
    ⟨"2024-01-01T09:00:00Z", 1980⟩, 0, false, []⟩⟩

/-- An order on M depending on an order of M2. -/
def woCross : WorkOrder :=
  ⟨"X", ⟨"NX", "mo", "M", canonDS 1980, canonDS 2040, 60, false, ["Y"]⟩⟩

/-- The cross-machine dependency target, on M2. -/
def woCrossDep : WorkOrder :=
  ⟨"Y", ⟨"NY", "mo", "M2", canonDS 1980, canonDS 2040, 60, false, []⟩⟩

/-- An order depending on itself. -/
def woSelf : WorkOrder :=
  ⟨"S", ⟨"NS", "mo", "M", canonDS 1980, canonDS 2040, 60, false, ["S"]⟩⟩

/-- A maintenance-pinned order on M at Mon 09:00Z-10:00Z. -/
def woPinned : WorkOrder :=
  ⟨"P", ⟨"NP", "mo", "M", canonDS 1980, canonDS 2040, 60, true, []⟩⟩

/-! ## Theorems -/

/-- C1. The claim says the driver writes end = projectEnd(newStart,
duration, wc), placing the second of two colliding Mon 09:00Z 60-minute
orders at 10:00Z-11:00Z. The code computes the end from the startDate still
stored on the order (the assignment of the new start happens after the
projection), and the conflict resolver compares against the input snapshot
that contains the order itself: both orders are placed at 10:00Z-10:00Z
(instant 2040) with success=true, while the projection of 60 minutes from
the new start 10:00Z would end at 11:00Z (instant 2100). -/
theorem reflow_end_from_stale_start_two_orders :
    placedTimes (reflow [wcMachine] [woA2, woB2]) =
      [("M", [("A", 2040, 2040), ("B", 2040, 2040)])] ∧
    resultSuccess (reflow [wcMachine] [woA2, woB2]) = true ∧
    calcEndT 2040 60 wcMachine = some 2100 := by decide

/-- C3. The claim says a second reflow call on the first successful result
yields no changes. On a single 60-minute order at Mon 09:00Z the first call
succeeds and moves the order to 10:00Z-10:00Z; the second call recomputes
the end from the stored start (now 10:00Z) and projects 60 minutes to
11:00Z, so it records one further change. -/
theorem reflow_not_idempotent_single_order :
    resultSuccess (reflow [wcMachine] [woSingle]) = true ∧
    placedTimes (reflow [wcMachine] [woSingle]) = [("M", [("A", 2040, 2040)])] ∧
    (resultChanges (reflow [wcMachine]
      (flattenSchedule (resultUpdated (reflow [wcMachine] [woSingle]))))).map
        (fun c => (c.workOrderId, c.newStart.instant, c.newEnd.instant)) =
      [("A", 2040, 2100)] := by decide

/-- C6. The claim says a zero-duration placed order gets
end = nextAvailable(start, wc). With duration 0 the projection loop never
runs and returns the parsed original start unchanged, so a zero-duration
order starting Sun 12:00Z (instant 720) is placed with start Mon 08:00Z
(1920) but end Sun 12:00Z (720), while nextAvailable of either the new or
the original start is Mon 08:00Z. -/
theorem reflow_zero_duration_end_is_old_start :
    placedTimes (reflow [wcMachine] [woZero]) = [("M", [("Z", 1920, 720)])] ∧
    resultSuccess (reflow [wcMachine] [woZero]) = true ∧
    nextAvailT 8 1920 wcMachine = some 1920 ∧
    nextAvailT 8 720 wcMachine = some 1920 := by decide

/-- C4 counterexample. The claim says getNextAvailableTime returns the
earliest instant at or after t inside a shift and inside no maintenance
window. At Mon 07:00Z (1860, before the shift end, so the documented caveat
does not apply) on a machine whose maintenance window is Mon 07:30Z-09:00Z,
the function snaps to the shift start Mon 08:00Z (1920), which lies inside
the maintenance window; the earliest valid instant is Mon 09:00Z (1980). -/
theorem nextAvail_returns_instant_in_maintenance :
    nextAvailT 8 1860 wcMaint = some 1920 ∧
    isInMaintenanceWindowT 1920 wcMaint = true ∧
    isInMaintenanceWindowT 1980 wcMaint = false := by decide

/-- On a work center with no shifts the recursion never finds a day to stop
on, at any fuel. -/
theorem nextAvailT_noShifts_none (wc : WorkCenter) (h : wc.data.shifts = []) :
    ∀ fuel t, nextAvailT fuel t wc = none := by
  intro fuel
  induction fuel with
  | zero => intro t; rfl
  | succ n ih =>
    intro t
    simp only [nextAvailT, getShiftForDay, h, List.find?_nil]
    exact ih _

/-- C5 counterexample. The claim says getNextAvailableTime terminates for
every work center, with recursion depth at most 7 weekday jumps plus one
maintenance jump. On a work center with no shifts the recursion never
terminates: it is still running after the claimed depth bound (fuel 8) and
after 100000 further jumps. -/
theorem nextAvail_diverges_without_shifts :
    nextAvailT 8 720 wcNoShift = none ∧ nextAvailT 100000 720 wcNoShift = none :=
  ⟨nextAvailT_noShifts_none wcNoShift rfl 8 720,
    nextAvailT_noShifts_none wcNoShift rfl 100000 720⟩

/-- The caveat of the specification: t is on a day that has a shift and is
before the end of that shift. -/
def beforeShiftEnd (t : Nat) (wc : WorkCenter) : Bool :=
  match getShiftForDay (weekdayMod7 t) wc with
  | some s => decide (minuteOfDay t < s.endHour * 60)
  | none => false

/-- t lies inside the shift of its weekday (the shift getShiftForDay picks). -/
def inShiftB (t : Nat) (wc : WorkCenter) : Bool :=
  match getShiftForDay (weekdayMod7 t) wc with
  | some s =>
    decide (s.startHour * 60 ≤ minuteOfDay t) && decide (minuteOfDay t < s.endHour * 60)
  | none => false

/-- With no maintenance windows, a shift day reachable within the fuel makes
the recursion stop. -/
theorem nextAvailT_isSome_of_shift (wc : WorkCenter)
    (hm : wc.data.maintenanceWindows = []) :
    ∀ fuel t, (∃ j, j < fuel ∧ (getShiftForDay ((t / 1440 + j) % 7) wc).isSome) →
      (nextAvailT fuel t wc).isSome := by
  intro fuel
  induction fuel with
  | zero => intro t h; obtain ⟨j, hj, _⟩ := h; omega
  | succ n ih =>
    intro t h
    simp only [nextAvailT, hm, List.find?_nil]
    cases hshift : getShiftForDay (weekdayMod7 t) wc with
    | some s => simp
    | none =>
      apply ih
      obtain ⟨j, hj, hsome⟩ := h
      cases j with
      | zero =>
        exfalso
        have heq : weekdayMod7 t = (t / 1440 + 0) % 7 := by
          simp only [weekdayMod7, Nat.add_zero]
        rw [← heq, hshift] at hsome
        simp at hsome
      | succ k =>
        refine ⟨k, by omega, ?_⟩
        have hday : nextDayStart t / 1440 = t / 1440 + 1 := by
          simp only [nextDayStart, startOfDay]; omega
        rw [hday]
        have : t / 1440 + 1 + k = t / 1440 + (k + 1) := by omega
        rw [this]
        exact hsome

/-- C5 amended: on a work center with no maintenance windows and at least
one shift on a real weekday (dayOfWeek in 0..6), getNextAvailableTime
terminates within the bound of the claim: fuel 8 (the initial call plus at
most 7 weekday jumps) suffices for every start instant. The original claim
fails for work centers with no matching shift (the recursion never stops,
see the counterexample) and its depth bound can also be exceeded when
maintenance windows repeatedly push the search past the only shift day. -/
theorem nextAvail_terminates_with_shift (wc : WorkCenter) (t : Nat)
    (hm : wc.data.maintenanceWindows = [])
    (hs : wc.data.shifts.any (fun s => decide (s.dayOfWeek < 7)) = true) :
    (nextAvailT 8 t wc).isSome = true := by
  have ⟨s, hmem, hlt⟩ := List.any_eq_true.1 hs
  have hd : s.dayOfWeek < 7 := of_decide_eq_true hlt
  apply nextAvailT_isSome_of_shift wc hm
  refine ⟨(s.dayOfWeek + 7 - (t / 1440) % 7) % 7, by omega, ?_⟩
  have harith : (t / 1440 + (s.dayOfWeek + 7 - (t / 1440) % 7) % 7) % 7 = s.dayOfWeek := by
    omega
  rw [harith]
  simp only [getShiftForDay, List.find?_isSome]
  exact ⟨s, hmem, by simp⟩

/-- C5 amended witness: the Mon-Fri machine at Sun 12:00Z. -/
theorem nextAvail_terminates_with_shift_witness :
    (nextAvailT 8 720 wcMachine).isSome = true :=
  nextAvail_terminates_with_shift wcMachine 720 rfl (by decide)

/-- Instants of one day share startOfDay and weekday. -/
theorem sameDay_lookup (t u : Nat) (h1 : startOfDay t ≤ u) (h2 : u < nextDayStart t) :
    weekdayMod7 u = weekdayMod7 t ∧ minuteOfDay u = u - startOfDay t := by
  simp only [startOfDay, nextDayStart, weekdayMod7, minuteOfDay] at *
  constructor
  · have : u / 1440 = t / 1440 := by omega
    rw [this]
  · omega

/-- C4 amended: with no maintenance windows (and shifts starting before
hour 24), getNextAvailableTime run with enough fuel returns, whenever its
result lands strictly before the shift end of its day (the caveat of the
claim), the earliest instant at or after t that lies inside a shift. The
claim as stated also promises the result avoids every maintenance window,
which is false (see the counterexample): the code leaves only the one
window containing t and never re-checks the snapped result. -/
theorem nextAvail_noMaintenance_earliest (wc : WorkCenter)
    (hm : wc.data.maintenanceWindows = [])
    (hs : wc.data.shifts.all (fun s => decide (s.startHour < 24)) = true) :
    ∀ fuel t r, nextAvailT fuel t wc = some r → beforeShiftEnd r wc = true →
      t ≤ r ∧ inShiftB r wc = true ∧
        ∀ u, t ≤ u → u < r → inShiftB u wc = false := by
  intro fuel
  induction fuel with
  | zero => intro t r hr; simp [nextAvailT] at hr
  | succ n ih =>
    intro t r hr hend
    simp only [nextAvailT, hm, List.find?_nil] at hr
    cases hshift : getShiftForDay (weekdayMod7 t) wc with
    | none =>
      rw [hshift] at hr
      have hnext := ih (nextDayStart t) r hr hend
      have htlt : t < nextDayStart t := by simp only [nextDayStart, startOfDay]; omega
      refine ⟨by omega, hnext.2.1, ?_⟩
      intro u hu1 hu2
      by_cases hcase : u < nextDayStart t
      · have hsame := sameDay_lookup t u (by simp only [startOfDay]; omega) hcase
        simp only [inShiftB, hsame.1, hshift]
      · exact hnext.2.2 u (by omega) hu2
    | some s =>
      rw [hshift] at hr
      have hsmem : s ∈ wc.data.shifts := List.mem_of_find?_eq_some hshift
      have hs24 : s.startHour < 24 :=
        of_decide_eq_true (List.all_eq_true.1 hs s hsmem)
      by_cases hbefore : t < setHour t s.startHour
      · simp only [if_pos hbefore, Option.some.injEq] at hr
        subst hr
        have hday : startOfDay t ≤ setHour t s.startHour ∧
            setHour t s.startHour < nextDayStart t := by
          simp only [setHour, startOfDay, nextDayStart]; omega
        have hsame := sameDay_lookup t (setHour t s.startHour) hday.1 hday.2
        have hmin : minuteOfDay (setHour t s.startHour) = s.startHour * 60 := by
          rw [hsame.2]; simp only [setHour]; omega
        refine ⟨by omega, ?_, ?_⟩
        · simp only [inShiftB, hsame.1, hshift, hmin, Bool.and_eq_true, decide_eq_true_eq]
          constructor
          · simp
          · simp only [beforeShiftEnd, hsame.1, hshift, hmin] at hend
            exact of_decide_eq_true hend
        · intro u hu1 hu2
          have h2 : setHour t s.startHour = startOfDay t + s.startHour * 60 := rfl
          have h3 : startOfDay t = 1440 * (t / 1440) := rfl
          have h4 : nextDayStart t = startOfDay t + 1440 := rfl
          have husame := sameDay_lookup t u (by omega) (by omega)
          simp only [inShiftB, husame.1, hshift, Bool.and_eq_false_iff]
          left
          simp only [decide_eq_false_iff_not]
          rw [husame.2]
          omega
      · simp only [if_neg hbefore, Option.some.injEq] at hr
        subst hr
        refine ⟨le_refl t, ?_, fun u hu1 hu2 => by omega⟩
        simp only [inShiftB, hshift, Bool.and_eq_true, decide_eq_true_eq]
        constructor
        · simp only [minuteOfDay, setHour, startOfDay] at *
          omega
        · simp only [beforeShiftEnd, hshift] at hend
          exact of_decide_eq_true hend

/-- C4 amended witness: Mon 07:00Z on the Mon-Fri machine snaps to the shift
start Mon 08:00Z, the earliest in-shift instant. -/
theorem nextAvail_noMaintenance_earliest_witness :
    (1860 : Nat) ≤ 1920 ∧ inShiftB 1920 wcMachine = true ∧
      ∀ u, 1860 ≤ u → u < 1920 → inShiftB u wcMachine = false :=
  nextAvail_noMaintenance_earliest wcMachine rfl (by decide) 8 1860 1920
    (by decide) (by decide)

/-- C9 counterexample. The claim says a Change entry is appended iff the
start or end instant changed. A zero-duration order at Mon 09:00Z whose date
strings are the secondless spelling is placed at the very same instants
(1980, 1980), yet one Change entry is appended, because the driver compares
the raw strings and the re-serialised canonical string differs from the
input spelling. -/
theorem reflow_change_without_instant_change :
    (resultChanges (reflow [wcMachine] [woNonCanon])).map
        (fun c => (c.oldStart.instant, c.newStart.instant,
          c.oldEnd.instant, c.newEnd.instant)) = [(1980, 1980, 1980, 1980)] ∧
    (resultChanges (reflow [wcMachine] [woNonCanon])).map
        (fun c => (c.oldStart.repr, c.newStart.repr)) =
      [("2024-01-01T09:00:00Z", "2024-01-01T09:00:00.000Z")] ∧
    resultSuccess (reflow [wcMachine] [woNonCanon]) = true := by decide

/-! ## The driver invariant

Facts preserved by every worklist iteration: the heap keeps its length and
every field but the dates of every object, maintenance objects are never
touched at all, schedule entries hold in-range positions filed under their
own work-center id, and every logged change was logged for a non-maintenance
object with the guard and the delay formula of the source. -/

theorem getD_set_self (l : List α) (i : Nat) (a d : α) (h : i < l.length) :
    (l.set i a).getD i d = a := by
  simp [List.getD, List.getElem?_set_self, h]

theorem getD_set_ne (l : List α) (i j : Nat) (a d : α) (h : i ≠ j) :
    (l.set i a).getD j d = l.getD j d := by
  simp [List.getD, List.getElem?_set_ne h]

theorem getD_mem (l : List α) (i : Nat) (d : α) (h : i < l.length) :
    l.getD i d ∈ l := by
  simp [List.getD, List.getElem?_eq_getElem h]

theorem listFlat_eq_nil {f : α → List β} {l : List α} (h : listFlat f l = []) :
    ∀ x ∈ l, f x = [] := by
  induction l with
  | nil => intro x hx; cases hx
  | cons y ys ih =>
    simp only [listFlat, List.append_eq_nil] at h
    intro x hx
    cases hx with
    | head => exact h.1
    | tail _ hx2 => exact ih h.2 x hx2

/-- Every field of a heap object except its two date fields agrees with the
input object at the same position. -/
def ImmutOk (w h : WorkOrder) : Prop :=
  h.docId = w.docId ∧ h.data.workOrderNumber = w.data.workOrderNumber ∧
  h.data.manufacturingOrderId = w.data.manufacturingOrderId ∧
  h.data.workCenterId = w.data.workCenterId ∧
  h.data.durationMinutes = w.data.durationMinutes ∧
  h.data.isMaintenance = w.data.isMaintenance ∧
  h.data.dependsOnWorkOrderIds = w.data.dependsOnWorkOrderIds

/-- What is true of every logged change: the serialised strings differed,
the delay is the clamped end difference, and the subject is a
non-maintenance input order. -/
def ChangeOk (wos : List WorkOrder) (c : ScheduleChange) : Prop :=
  (c.oldStart.repr ≠ c.newStart.repr ∨ c.oldEnd.repr ≠ c.newEnd.repr) ∧
  c.delayMinutes = max 0 (getMinutesDiff c.oldEnd.instant c.newEnd.instant) ∧
  ∃ j, j < wos.length ∧ (wos.getD j dummyWo).data.isMaintenance = false ∧
    c.workOrderId = (wos.getD j dummyWo).docId

/-- The driver invariant over the input list wos. -/
def DriverInv (wos : List WorkOrder) (st : RState) : Prop :=
  st.heap.length = wos.length ∧
  (∀ i, i < wos.length → ImmutOk (wos.getD i dummyWo) (st.heap.getD i dummyWo)) ∧
  (∀ i, i < wos.length → (wos.getD i dummyWo).data.isMaintenance = true →
    st.heap.getD i dummyWo = wos.getD i dummyWo) ∧
  (∀ p ∈ st.schedule, ∀ j ∈ p.2, j < wos.length ∧
    (st.heap.getD j dummyWo).data.workCenterId = p.1) ∧
  (∀ c ∈ st.changes, ChangeOk wos c)

theorem driverInv_init (wos : List WorkOrder) : DriverInv wos ⟨wos, [], []⟩ := by
  refine ⟨rfl, ?_, ?_, ?_, ?_⟩
  · intro i _
    exact ⟨rfl, rfl, rfl, rfl, rfl, rfl, rfl⟩
  · intro i _ _
    rfl
  · intro p hp
    cases hp
  · intro c hc
    cases hc

theorem ensureKey_inv {wos : List WorkOrder} {st : RState} (h : DriverInv wos st)
    (wcId : String) : DriverInv wos (ensureKey st wcId) := by
  obtain ⟨h1, h2, h3, h4, h5⟩ := h
  unfold ensureKey
  split
  · exact ⟨h1, h2, h3, h4, h5⟩
  · refine ⟨h1, h2, h3, ?_, h5⟩
    intro p hp
    simp only [List.mem_append, List.mem_singleton] at hp
    cases hp with
    | inl hin => exact h4 p hin
    | inr heq => subst heq; intro j hj; cases hj

theorem addToWorkCenterSchedule_inv {wos : List WorkOrder} {st : RState}
    (h : DriverInv wos st) (i : Nat) (hi : i < wos.length) :
    DriverInv wos (addToWorkCenterSchedule st i) := by
  obtain ⟨h1, h2, h3, h4, h5⟩ := h
  simp only [addToWorkCenterSchedule]
  split
  · exact ⟨h1, h2, h3, h4, h5⟩
  · refine ⟨h1, h2, h3, ?_, h5⟩
    intro p hp
    simp only [pushA, List.mem_map] at hp
    obtain ⟨q, hq, hqe⟩ := hp
    by_cases hkey : (q.1 == (heapAt st i).data.workCenterId) = true
    · rw [if_pos hkey] at hqe
      subst hqe
      intro j hj
      simp only [List.mem_append, List.mem_singleton] at hj
      cases hj with
      | inl hin => exact h4 q hq j hin
      | inr hji =>
        subst hji
        exact ⟨hi, (eq_of_beq hkey).symm⟩
    · rw [if_neg hkey] at hqe
      subst hqe
      exact h4 q hq

theorem ensureKey_heap (st : RState) (wcId : String) : (ensureKey st wcId).heap = st.heap := by
  unfold ensureKey
  split
  · rfl
  · rfl

theorem addToWorkCenterSchedule_heap (st : RState) (i : Nat) :
    (addToWorkCenterSchedule st i).heap = st.heap := by
  simp only [addToWorkCenterSchedule]
  split
  · rfl
  · rfl

theorem updateDates_inv {wos : List WorkOrder} {st : RState} (h : DriverInv wos st)
    (i : Nat) (hi : i < wos.length)
    (hnm : (wos.getD i dummyWo).data.isMaintenance = false) (ns ne : DateStr) :
    DriverInv wos (updateDates st i ns ne) := by
  obtain ⟨h1, h2, h3, h4, h5⟩ := h
  have hlen : i < st.heap.length := by omega
  have hheap : ∀ j, j ≠ i →
      (updateDates st i ns ne).heap.getD j dummyWo = st.heap.getD j dummyWo := by
    intro j hj
    simp only [updateDates]
    exact getD_set_ne _ _ _ _ _ (fun he => hj he.symm)
  have hself : (updateDates st i ns ne).heap.getD i dummyWo =
      { heapAt st i with
        data := { (heapAt st i).data with startDate := ns, endDate := ne } } := by
    simp only [updateDates]
    exact getD_set_self _ _ _ _ hlen
  refine ⟨?_, ?_, ?_, ?_, h5⟩
  · simp only [updateDates, List.length_set]
    exact h1
  · intro j hj
    by_cases hcase : j = i
    · subst hcase
      rw [hself]
      obtain ⟨e1, e2, e3, e4, e5, e6, e7⟩ := h2 j hj
      exact ⟨e1, e2, e3, e4, e5, e6, e7⟩
    · rw [hheap j hcase]
      exact h2 j hj
  · intro j hj hm
    by_cases hcase : j = i
    · subst hcase
      rw [hm] at hnm
      cases hnm
    · rw [hheap j hcase]
      exact h3 j hj hm
  · intro p hp j hj
    have := h4 p hp j hj
    by_cases hcase : j = i
    · subst hcase
      rw [hself]
      exact ⟨this.1, this.2⟩
    · rw [hheap j hcase]
      exact this

theorem collectStep_bound {st1 : RState} {machineList : List Nat} {order : WorkOrder}
    {l0 l1 : List Nat} {d : String}
    (hb : ∀ j ∈ l0, j < st1.heap.length)
    (h : collectStep st1 machineList order (.ok l0) d = .ok l1) :
    ∀ j ∈ l1, j < st1.heap.length := by
  simp only [collectStep] at h
  split at h
  · cases h
    exact hb
  · split at h
    · rename_i jf hjf
      cases h
      intro j hj
      simp only [List.mem_append, List.mem_singleton] at hj
      cases hj with
      | inl hin => exact hb j hin
      | inr hji =>
        subst hji
        exact List.mem_range.1 (List.mem_of_find?_eq_some hjf)
    · cases h

theorem collectFold_bound {st1 : RState} {machineList : List Nat} {order : WorkOrder} :
    ∀ (deps : List String) (acc : Except String (List Nat)) (l : List Nat),
      (∀ l0, acc = .ok l0 → ∀ j ∈ l0, j < st1.heap.length) →
      deps.foldl (collectStep st1 machineList order) acc = .ok l →
      ∀ j ∈ l, j < st1.heap.length := by
  intro deps
  induction deps with
  | nil =>
    intro acc l hacc h
    simp only [List.foldl_nil] at h
    exact hacc l h
  | cons d ds ih =>
    intro acc l hacc h
    simp only [List.foldl_cons] at h
    apply ih _ l _ h
    intro l1 hstep
    cases acc with
    | error e => simp [collectStep] at hstep
    | ok l0 => exact collectStep_bound (hacc l0 rfl) hstep

theorem collectUnprocessed_bound {st1 : RState} {machineList : List Nat}
    {order : WorkOrder} {l : List Nat}
    (h : collectUnprocessed st1 machineList order = .ok l) :
    ∀ j ∈ l, j < st1.heap.length := by
  apply collectFold_bound _ _ _ _ h
  intro l0 he
  cases he
  intro j hj
  cases hj

theorem placeOrder_inv {wcs : List WorkCenter} {wcSched : List (String × List Nat)}
    {wos : List WorkOrder} {st1 : RState} {i : Nat} {order : WorkOrder} {st4 : RState}
    (h : DriverInv wos st1) (hi : i < wos.length) (hord : order = heapAt st1 i)
    (hnm : order.data.isMaintenance = false)
    (hok : placeOrder wcs wcSched st1 i order = .ok st4) : DriverInv wos st4 := by
  have hmfalse : (wos.getD i dummyWo).data.isMaintenance = false := by
    have := (h.2.1 i hi).2.2.2.2.2.1
    simp only [heapAt] at hord
    rw [hord] at hnm
    rw [← this]
    exact hnm
  simp only [placeOrder] at hok
  split at hok
  · cases hok
  · rename_i workCenter hfindwc
    split at hok
    · cases hok
    · rename_i snapped hsnap
      split at hok
      · cases hok
      · rename_i newStartT hres
        split at hok
        · cases hok
        · rename_i newEndT hcalc
          have hinv3 : DriverInv wos
              (addToWorkCenterSchedule
                (updateDates st1 i (canonDS newStartT) (canonDS newEndT)) i) :=
            addToWorkCenterSchedule_inv
              (updateDates_inv h i hi hmfalse (canonDS newStartT) (canonDS newEndT)) i hi
          set st3 := addToWorkCenterSchedule
            (updateDates st1 i (canonDS newStartT) (canonDS newEndT)) i with hst3
          simp only [Except.ok.injEq] at hok
          split at hok
          · subst hok
            obtain ⟨g1, g2, g3, g4, g5⟩ := hinv3
            refine ⟨g1, g2, g3, g4, ?_⟩
            intro c hc
            simp only [List.mem_append, List.mem_singleton] at hc
            cases hc with
            | inl hin => exact g5 c hin
            | inr hce =>
              subst hce
              rename_i hchanged
              refine ⟨?_, rfl, i, hi, hmfalse, ?_⟩
              · simp only [Bool.or_eq_true, Bool.not_eq_eq_eq_not, Bool.not_true,
                  beq_eq_false_iff_ne, ne_eq] at hchanged
                exact hchanged
              · rw [hord]
                exact (h.2.1 i hi).1
          · subst hok
            exact hinv3

theorem reflowStep_inv {wcs : List WorkCenter} {wcSched : List (String × List Nat)}
    {wos : List WorkOrder} {st st2 : RState} {i : Nat} {q : Option (List Nat)}
    (h : DriverInv wos st) (hi : i < wos.length)
    (hok : reflowStep wcs wcSched i st = .ok (st2, q)) :
    DriverInv wos st2 ∧ ∀ u, q = some u → ∀ j ∈ u, j < wos.length := by
  have hek := ensureKey_inv h (heapAt st i).data.workCenterId
  have hekheap : (ensureKey st (heapAt st i).data.workCenterId).heap = st.heap :=
    ensureKey_heap st _
  simp only [reflowStep] at hok
  split at hok
  · simp only [Except.ok.injEq, Prod.mk.injEq] at hok
    obtain ⟨he1, he2⟩ := hok
    subst he1
    subst he2
    exact ⟨hek, by intro u hu; cases hu⟩
  · split at hok
    · cases hok
    · rename_i unproc hcol
      split at hok
      · simp only [Except.ok.injEq, Prod.mk.injEq] at hok
        obtain ⟨he1, he2⟩ := hok
        subst he1
        subst he2
        refine ⟨hek, ?_⟩
        intro u hu j hj
        cases hu
        have hb := collectUnprocessed_bound hcol j hj
        rw [hekheap] at hb
        have hlen := h.1
        omega
      · split at hok
        · simp only [Except.ok.injEq, Prod.mk.injEq] at hok
          obtain ⟨he1, he2⟩ := hok
          subst he1
          subst he2
          exact ⟨addToWorkCenterSchedule_inv hek i hi, by intro u hu; cases hu⟩
        · rename_i hnm
          split at hok
          · cases hok
          · rename_i st4 hplace
            simp only [Except.ok.injEq, Prod.mk.injEq] at hok
            obtain ⟨he1, he2⟩ := hok
            subst he1
            subst he2
            refine ⟨?_, by intro u hu; cases hu⟩
            apply placeOrder_inv hek hi ?_ ?_ hplace
            · simp only [heapAt] at hekheap ⊢
              rw [hekheap]
            · simpa using hnm

theorem reflowLoop_inv {wcs : List WorkCenter} {wcSched : List (String × List Nat)}
    {wos : List WorkOrder} :
    ∀ (fuel : Nat) (q : List Nat) (st stF : RState) (capped : Bool),
      DriverInv wos st → (∀ j ∈ q, j < wos.length) →
      reflowLoop wcs wcSched fuel q st = .ok (stF, capped) → DriverInv wos stF := by
  intro fuel
  induction fuel with
  | zero =>
    intro q st stF capped h hq hok
    simp only [reflowLoop, Except.ok.injEq, Prod.mk.injEq] at hok
    rw [← hok.1]
    exact h
  | succ n ih =>
    intro q st stF capped h hq hok
    cases q with
    | nil =>
      simp only [reflowLoop, Except.ok.injEq, Prod.mk.injEq] at hok
      rw [← hok.1]
      exact h
    | cons i rest =>
      have hi : i < wos.length := hq i (List.mem_cons_self i rest)
      simp only [reflowLoop] at hok
      split at hok
      · cases hok
      · rename_i st2 hstep
        have := reflowStep_inv h hi hstep
        exact ih rest st2 stF capped this.1
          (fun j hj => hq j (List.mem_cons_of_mem i hj)) hok
      · rename_i st2 unproc hstep
        have hstep2 := reflowStep_inv h hi hstep
        apply ih (unproc ++ rest ++ [i]) st2 stF capped hstep2.1 _ hok
        intro j hj
        simp only [List.mem_append, List.mem_singleton] at hj
        cases hj with
        | inl hj2 =>
          cases hj2 with
          | inl hju => exact hstep2.2 unproc rfl j hju
          | inr hjr => exact hq j (List.mem_cons_of_mem i hjr)
        | inr hji => subst hji; exact hi

/-- Case analysis of a returned (not thrown) reflow outcome: either one of
the early returns with an empty schedule, or the final return built from a
loop state satisfying the driver invariant. -/
theorem reflow_cases {wcs : List WorkCenter} {wos : List WorkOrder} {r : ReflowResult}
    (h : reflow wcs wos = .ok r) :
    (r.updatedWorkOrders = [] ∧ r.changes = []) ∨
    (∃ stF, DriverInv wos stF ∧
      r.updatedWorkOrders = resolveSchedule stF ∧ r.changes = stF.changes ∧
      r.success = (validateErrors (resolveSchedule stF) wcs).isEmpty) := by
  simp only [reflow] at h
  split at h
  · cases h
    left
    exact ⟨rfl, rfl⟩
  · split at h
    · cases h
      left
      exact ⟨rfl, rfl⟩
    · split at h
      · cases h
      · rename_i stF capped hloop
        have hinv : DriverInv wos stF := by
          apply reflowLoop_inv (wos.length * 100) (List.range wos.length)
            ⟨wos, [], []⟩ stF capped (driverInv_init wos) _ hloop
          intro j hj
          exact List.mem_range.1 hj
        split at h
        · cases h
          left
          exact ⟨rfl, rfl⟩
        · cases h
          right
          exact ⟨stF, hinv, rfl, rfl, rfl⟩

/-- C7. Every maintenance-pinned order appearing in the returned schedule is
one of the input objects, untouched (start and end included), and every
Change entry was recorded for a non-maintenance input order, so none refers
to a pinned one where docIds identify orders. -/
theorem reflow_preserves_pinned_orders (wcs : List WorkCenter) (wos : List WorkOrder)
    (p : String × List WorkOrder) (hp : p ∈ resultUpdated (reflow wcs wos))
    (o : WorkOrder) (ho : o ∈ p.2) (hm : o.data.isMaintenance = true) :
    o ∈ wos ∧ ∀ c ∈ resultChanges (reflow wcs wos),
      ∃ wo, wo ∈ wos ∧ wo.docId = c.workOrderId ∧ wo.data.isMaintenance = false := by
  cases hout : reflow wcs wos with
  | error e =>
    simp only [resultUpdated, hout] at hp
    cases hp
  | ok r =>
    simp only [resultUpdated, hout] at hp
    simp only [resultChanges, hout]
    rcases reflow_cases hout with ⟨hupd, _⟩ | ⟨stF, hinv, hupd, hchg, _⟩
    · rw [hupd] at hp
      cases hp
    · rw [hupd] at hp
      simp only [resolveSchedule, List.mem_map] at hp
      obtain ⟨q, hq, hqe⟩ := hp
      subst hqe
      simp only [List.mem_map] at ho
      obtain ⟨j, hj, hje⟩ := ho
      have hsched := hinv.2.2.2.1 q hq j hj
      have himm := hinv.2.1 j hsched.1
      have hmain : (wos.getD j dummyWo).data.isMaintenance = true := by
        rw [← himm.2.2.2.2.2.1]
        simp only [heapAt] at hje
        rw [hje]
        exact hm
      have hpin := hinv.2.2.1 j hsched.1 hmain
      constructor
      · rw [← hje]
        simp only [heapAt]
        rw [hpin]
        exact getD_mem wos j dummyWo hsched.1
      · rw [hchg]
        intro c hc
        obtain ⟨_, _, k, hk, hknm, hkid⟩ := hinv.2.2.2.2 c hc
        exact ⟨wos.getD k dummyWo, getD_mem wos k dummyWo hk, hkid.symm, hknm⟩

/-- An empty validator error list means no machine group holds a pair of
distinct-id overlapping orders. -/
theorem validateErrors_nil_no_conflict {sch : List (String × List WorkOrder)}
    {wcs : List WorkCenter} (h : validateErrors sch wcs = [])
    {p : String × List WorkOrder} (hp : p ∈ sch) {a : WorkOrder} (ha : a ∈ p.2)
    {b : WorkOrder} (hb : b ∈ p.2) (hab : b.docId ≠ a.docId) :
    hasWorkCenterConflict a b = false := by
  have hmach := listFlat_eq_nil h p hp
  simp only [machineErrors, List.append_eq_nil] at hmach
  have hwo := listFlat_eq_nil hmach.2 a ha
  simp only [woErrors, List.append_eq_nil] at hwo
  have hconf := hwo.1.2
  cases hcs : conflictsOf a p.2 with
  | cons x xs =>
    rw [hcs] at hconf
    cases hconf
  | nil =>
    have := List.filter_eq_nil_iff.1 hcs b hb
    simp only [Bool.and_eq_true, Bool.not_eq_eq_eq_not, Bool.not_true,
      beq_eq_false_iff_ne, ne_eq, not_and] at this
    rcases Bool.eq_false_or_eq_true (hasWorkCenterConflict a b) with ht | hf
    · exact absurd ht (this hab)
    · exact hf

/-- C2. After any success=true outcome, two placed orders of one machine
group with distinct docIds occupy disjoint half-open intervals:
a.end ≤ b.start or b.end ≤ a.start (on instants). -/
theorem reflow_success_no_machine_overlap (wcs : List WorkCenter)
    (wos : List WorkOrder) (p : String × List WorkOrder) (a b : WorkOrder)
    (hs : resultSuccess (reflow wcs wos) = true)
    (hp : p ∈ resultUpdated (reflow wcs wos)) (ha : a ∈ p.2) (hb : b ∈ p.2)
    (hab : a.docId ≠ b.docId) :
    a.data.endDate.instant ≤ b.data.startDate.instant ∨
    b.data.endDate.instant ≤ a.data.startDate.instant := by
  cases hout : reflow wcs wos with
  | error e =>
    simp only [resultSuccess, hout] at hs
    cases hs
  | ok r =>
    simp only [resultSuccess, hout] at hs
    simp only [resultUpdated, hout] at hp
    rcases reflow_cases hout with ⟨hupd, _⟩ | ⟨stF, hinv, hupd, _, hsucc⟩
    · rw [hupd] at hp
      cases hp
    · rw [hupd] at hp
      have hnil : validateErrors (resolveSchedule stF) wcs = [] := by
        rw [hsucc] at hs
        exact List.isEmpty_iff.1 hs
      have hconf : hasWorkCenterConflict a b = false :=
        validateErrors_nil_no_conflict hnil hp ha hb (fun he => hab he.symm)
      have hp2 := hp
      simp only [resolveSchedule, List.mem_map] at hp2
      obtain ⟨q, hq, hqe⟩ := hp2
      have hamem : a ∈ p.2 := ha
      have hbmem : b ∈ p.2 := hb
      rw [← hqe] at hamem hbmem
      simp only [List.mem_map] at hamem hbmem
      obtain ⟨ja, hja, hjae⟩ := hamem
      obtain ⟨jb, hjb, hjbe⟩ := hbmem
      have hwca : a.data.workCenterId = q.1 := by
        rw [← hjae]
        simp only [heapAt]
        exact (hinv.2.2.2.1 q hq ja hja).2
      have hwcb : b.data.workCenterId = q.1 := by
        rw [← hjbe]
        simp only [heapAt]
        exact (hinv.2.2.2.1 q hq jb hjb).2
      rw [hasWorkCenterConflict, hwca, hwcb] at hconf
      simp only [beq_self_eq_true, Bool.true_and, Bool.and_eq_false_iff,
        decide_eq_false_iff_not, not_lt] at hconf
      omega

/-- The order A of the two-order scenario as the driver places it. -/
def woA2placed : WorkOrder :=
  ⟨"A", ⟨"NA", "mo", "M", canonDS 2040, canonDS 2040, 60, false, []⟩⟩

/-- The order B of the two-order scenario as the driver places it. -/
def woB2placed : WorkOrder :=
  ⟨"B", ⟨"NB", "mo", "M", canonDS 2040, canonDS 2040, 60, false, []⟩⟩

/-- C2 witness: the two colliding orders end up disjoint (both intervals are
empty at Mon 10:00Z) in a success=true run. -/
theorem reflow_success_no_machine_overlap_witness :
    resultSuccess (reflow [wcMachine] [woA2, woB2]) = true ∧
    (woA2placed.data.endDate.instant ≤ woB2placed.data.startDate.instant ∨
      woB2placed.data.endDate.instant ≤ woA2placed.data.startDate.instant) :=
  ⟨by decide,
    reflow_success_no_machine_overlap [wcMachine] [woA2, woB2]
      ("M", [woA2placed, woB2placed]) woA2placed woB2placed
      (by decide) (by decide) (by decide) (by decide) (by decide)⟩

/-- C7 witness: a pinned order on the Mon-Fri machine is returned as the
very input object. -/
theorem reflow_preserves_pinned_orders_witness :
    woPinned ∈ [woPinned] ∧
    ∀ c ∈ resultChanges (reflow [wcMachine] [woPinned]),
      ∃ wo, wo ∈ [woPinned] ∧ wo.docId = c.workOrderId ∧
        wo.data.isMaintenance = false :=
  reflow_preserves_pinned_orders [wcMachine] [woPinned] ("M", [woPinned])
    (by decide) woPinned (by decide) (by decide)

/-! ## The stuck-order analysis (C10)

A non-maintenance order whose dependency lives on another machine can never
pass the placed-dependency check, because that check searches only the
schedule list of the machine of the dependent order. The order is requeued
forever and the worklist loop runs into its iteration cap. -/

/-- No schedule entry of the state carries the given docId. -/
def NotScheduled (xid : String) (st : RState) : Prop :=
  ∀ p ∈ st.schedule, ∀ j ∈ p.2, (st.heap.getD j dummyWo).docId ≠ xid

theorem docId_getD_inj {wos : List WorkOrder}
    (hnodup : (wos.map (fun wo => wo.docId)).Nodup)
    {i j : Nat} (hi : i < wos.length) (hj : j < wos.length)
    (h : (wos.getD i dummyWo).docId = (wos.getD j dummyWo).docId) : i = j := by
  have hgi : wos.getD i dummyWo = wos[i] := by
    simp [List.getD, List.getElem?_eq_getElem hi]
  have hgj : wos.getD j dummyWo = wos[j] := by
    simp [List.getD, List.getElem?_eq_getElem hj]
  rw [hgi, hgj] at h
  have hmi : i < (wos.map (fun wo => wo.docId)).length := by
    simp only [List.length_map]
    exact hi
  have hmj : j < (wos.map (fun wo => wo.docId)).length := by
    simp only [List.length_map]
    exact hj
  have hget : (wos.map (fun wo => wo.docId)).get ⟨i, hmi⟩ =
      (wos.map (fun wo => wo.docId)).get ⟨j, hmj⟩ := by
    simp only [List.get_eq_getElem, List.getElem_map]
    exact h
  exact congrArg Fin.val ((List.Nodup.get_inj_iff hnodup).1 hget)

theorem ensureKey_stuck {xid : String} {st : RState} (h : NotScheduled xid st)
    (wcId : String) : NotScheduled xid (ensureKey st wcId) := by
  unfold ensureKey
  split
  · exact h
  · intro p hp j hj
    simp only [List.mem_append, List.mem_singleton] at hp
    cases hp with
    | inl hin => exact h p hin j hj
    | inr heq => subst heq; cases hj

theorem addToWorkCenterSchedule_stuck {xid : String} {st : RState} {i : Nat}
    (h : NotScheduled xid st) (hne : (heapAt st i).docId ≠ xid) :
    NotScheduled xid (addToWorkCenterSchedule st i) := by
  simp only [NotScheduled, addToWorkCenterSchedule]
  split
  · exact h
  · intro p hp j hj
    simp only [pushA, List.mem_map] at hp
    obtain ⟨q, hq, hqe⟩ := hp
    by_cases hkey : (q.1 == (heapAt st i).data.workCenterId) = true
    · rw [if_pos hkey] at hqe
      subst hqe
      simp only [List.mem_append, List.mem_singleton] at hj
      cases hj with
      | inl hin => exact h q hq j hin
      | inr hji => subst hji; exact hne
    · rw [if_neg hkey] at hqe
      subst hqe
      exact h q hq j hj

theorem updateDates_docId (st : RState) (i j : Nat) (ns ne : DateStr) :
    ((updateDates st i ns ne).heap.getD j dummyWo).docId =
      (st.heap.getD j dummyWo).docId := by
  by_cases hcase : j = i
  · subst hcase
    by_cases hlen : j < st.heap.length
    · simp only [updateDates]
      rw [getD_set_self _ _ _ _ hlen]
      rfl
    · simp only [updateDates]
      rw [List.getD_eq_default _ _ (by simpa using (Nat.le_of_not_lt hlen)),
        List.getD_eq_default _ _ (Nat.le_of_not_lt hlen)]
  · simp only [updateDates]
    rw [getD_set_ne _ _ _ _ _ (fun he => hcase he.symm)]

theorem updateDates_stuck {xid : String} {st : RState} {i : Nat} {ns ne : DateStr}
    (h : NotScheduled xid st) : NotScheduled xid (updateDates st i ns ne) := by
  intro p hp j hj
  rw [updateDates_docId]
  exact h p hp j hj

theorem placeOrder_stuck {wcs : List WorkCenter} {wcSched : List (String × List Nat)}
    {xid : String} {st1 : RState} {i : Nat} {order : WorkOrder} {st4 : RState}
    (h : NotScheduled xid st1) (hne : (heapAt st1 i).docId ≠ xid)
    (hok : placeOrder wcs wcSched st1 i order = .ok st4) : NotScheduled xid st4 := by
  simp only [placeOrder] at hok
  split at hok
  · cases hok
  · rename_i workCenter hfindwc
    split at hok
    · cases hok
    · rename_i snapped hsnap
      split at hok
      · cases hok
      · rename_i newStartT hres
        split at hok
        · cases hok
        · rename_i newEndT hcalc
          simp only [Except.ok.injEq] at hok
          have hbase : NotScheduled xid
              (addToWorkCenterSchedule
                (updateDates st1 i (canonDS newStartT) (canonDS newEndT)) i) := by
            apply addToWorkCenterSchedule_stuck (updateDates_stuck h)
            simp only [heapAt]
            rw [updateDates_docId]
            exact hne
          split at hok
          · subst hok
            intro p hp j hj
            exact hbase p hp j hj
          · subst hok
            exact hbase

theorem reflowStep_stuck {wcs : List WorkCenter} {wcSched : List (String × List Nat)}
    {xid : String} {st st2 : RState} {i : Nat} {q : Option (List Nat)}
    (h : NotScheduled xid st) (hne : (heapAt st i).docId ≠ xid)
    (hok : reflowStep wcs wcSched i st = .ok (st2, q)) : NotScheduled xid st2 := by
  have hek := ensureKey_stuck h (heapAt st i).data.workCenterId
  have hekheap : (ensureKey st (heapAt st i).data.workCenterId).heap = st.heap :=
    ensureKey_heap st _
  have hne1 : (heapAt (ensureKey st (heapAt st i).data.workCenterId) i).docId ≠ xid := by
    simp only [heapAt] at hekheap ⊢
    rw [hekheap]
    simp only [heapAt] at hne
    exact hne
  simp only [reflowStep] at hok
  split at hok
  · simp only [Except.ok.injEq, Prod.mk.injEq] at hok
    rw [← hok.1]
    exact hek
  · split at hok
    · cases hok
    · split at hok
      · simp only [Except.ok.injEq, Prod.mk.injEq] at hok
        rw [← hok.1]
        exact hek
      · split at hok
        · simp only [Except.ok.injEq, Prod.mk.injEq] at hok
          rw [← hok.1]
          exact addToWorkCenterSchedule_stuck hek hne1
        · split at hok
          · cases hok
          · rename_i st4 hplace
            simp only [Except.ok.injEq, Prod.mk.injEq] at hok
            rw [← hok.1]
            exact placeOrder_stuck hek hne1 hplace

theorem reflowStep_stuck_requeue {wcs : List WorkCenter}
    {wcSched : List (String × List Nat)} {xid : String} {st st2 : RState} {i : Nat}
    {u : List Nat} (h : NotScheduled xid st)
    (hok : reflowStep wcs wcSched i st = .ok (st2, some u)) : NotScheduled xid st2 := by
  have hek := ensureKey_stuck h (heapAt st i).data.workCenterId
  simp only [reflowStep] at hok
  split at hok
  · simp only [Except.ok.injEq, Prod.mk.injEq] at hok
    rw [← hok.1]
    exact hek
  · split at hok
    · cases hok
    · split at hok
      · simp only [Except.ok.injEq, Prod.mk.injEq] at hok
        rw [← hok.1]
        exact hek
      · split at hok
        · simp only [Except.ok.injEq, Prod.mk.injEq] at hok
          cases hok.2
        · split at hok
          · cases hok
          · simp only [Except.ok.injEq, Prod.mk.injEq] at hok
            cases hok.2

theorem collectFold_error (st1 : RState) (ml : List Nat) (order : WorkOrder) :
    ∀ (deps : List String) (e : String),
      deps.foldl (collectStep st1 ml order) (.error e) = .error e := by
  intro deps
  induction deps with
  | nil => intro e; rfl
  | cons d ds ih =>
    intro e
    simp only [List.foldl_cons, collectStep]
    exact ih e

theorem collectFold_prefix (st1 : RState) (ml : List Nat) (order : WorkOrder) :
    ∀ (deps : List String) (l0 l : List Nat),
      deps.foldl (collectStep st1 ml order) (.ok l0) = .ok l → ∃ t, l = l0 ++ t := by
  intro deps
  induction deps with
  | nil =>
    intro l0 l h
    simp only [List.foldl_nil, Except.ok.injEq] at h
    exact ⟨[], by rw [← h, List.append_nil]⟩
  | cons d ds ih =>
    intro l0 l h
    simp only [List.foldl_cons] at h
    cases hstep : collectStep st1 ml order (.ok l0) d with
    | error e =>
      rw [hstep, collectFold_error] at h
      cases h
    | ok l1 =>
      rw [hstep] at h
      have hext : ∃ t1, l1 = l0 ++ t1 := by
        simp only [collectStep] at hstep
        split at hstep
        · simp only [Except.ok.injEq] at hstep
          exact ⟨[], by rw [← hstep, List.append_nil]⟩
        · split at hstep
          · simp only [Except.ok.injEq] at hstep
            rename_i jf hjf
            exact ⟨[jf], hstep.symm⟩
          · cases hstep
      obtain ⟨t1, ht1⟩ := hext
      obtain ⟨t2, ht2⟩ := ih l1 l h
      exact ⟨t1 ++ t2, by rw [ht2, ht1, List.append_assoc]⟩

theorem collectFold_nonempty (st1 : RState) (ml : List Nat) (order : WorkOrder) :
    ∀ (deps : List String) (l0 l : List Nat) (d : String), d ∈ deps →
      (ml.any (fun j => (heapAt st1 j).docId == d)) = false →
      deps.foldl (collectStep st1 ml order) (.ok l0) = .ok l → l ≠ [] := by
  intro deps
  induction deps with
  | nil =>
    intro l0 l d hd
    cases hd
  | cons d0 ds ih =>
    intro l0 l d hd hml h
    simp only [List.foldl_cons] at h
    cases hd with
    | head =>
      simp only [collectStep, hml, Bool.false_eq_true, if_false] at h
      cases hfind : (List.range st1.heap.length).find?
          (fun j => (heapAt st1 j).docId == d0) with
      | none =>
        rw [hfind, collectFold_error] at h
        cases h
      | some jf =>
        rw [hfind] at h
        obtain ⟨t, ht⟩ := collectFold_prefix st1 ml order ds _ l h
        subst ht
        simp
    | tail _ hd2 =>
      cases hstep : collectStep st1 ml order (.ok l0) d0 with
      | error e =>
        rw [hstep, collectFold_error] at h
        cases h
      | ok l1 =>
        rw [hstep] at h
        exact ih l1 l d hd2 hml h

theorem scheduledOn_mem {st : RState} {k : String} {j : Nat}
    (h : j ∈ scheduledOn st k) : ∃ p ∈ st.schedule, p.1 = k ∧ j ∈ p.2 := by
  simp only [scheduledOn, lookupA] at h
  cases hfind : st.schedule.find? (fun p => p.1 == k) with
  | none =>
    rw [hfind] at h
    cases h
  | some p =>
    rw [hfind] at h
    have hbeq : (p.1 == k) = true := by
      have := List.find?_some hfind
      simpa using this
    exact ⟨p, List.mem_of_find?_eq_some hfind, eq_of_beq hbeq, h⟩

/-- Processing the cross-machine-dependent order can only requeue it: its
dependency is never found in the schedule list of its own machine, so the
unprocessed-dependency branch is taken. -/
theorem reflowStep_requeues_stuck {wcs : List WorkCenter}
    {wcSched : List (String × List Nat)} {wos : List WorkOrder} {st st2 : RState}
    {q : Option (List Nat)} {x y : WorkOrder} {ix : Nat}
    (hinv : DriverInv wos st) (hns : NotScheduled x.docId st)
    (hnodup : (wos.map (fun wo => wo.docId)).Nodup)
    (hix : ix < wos.length) (hxe : wos.getD ix dummyWo = x) (hymem : y ∈ wos)
    (hdep : y.docId ∈ x.data.dependsOnWorkOrderIds)
    (hwc : x.data.workCenterId ≠ y.data.workCenterId)
    (hstep : reflowStep wcs wcSched ix st = .ok (st2, q)) : ∃ u, q = some u := by
  obtain ⟨iy, hiylt, hiye⟩ := List.mem_iff_getElem.1 hymem
  have hiyd : wos.getD iy dummyWo = y := by
    simp [List.getD, List.getElem?_eq_getElem hiylt, hiye]
  have hinv1 := ensureKey_inv hinv (heapAt st ix).data.workCenterId
  have hns1 := ensureKey_stuck hns (heapAt st ix).data.workCenterId
  have hekheap : (ensureKey st (heapAt st ix).data.workCenterId).heap = st.heap :=
    ensureKey_heap st _
  have himm := hinv.2.1 ix hix
  have hxdoc : (heapAt st ix).docId = x.docId := by
    simp only [heapAt]
    rw [himm.1, hxe]
  have hxwc : (heapAt st ix).data.workCenterId = x.data.workCenterId := by
    simp only [heapAt]
    rw [himm.2.2.2.1, hxe]
  have hxdeps : (heapAt st ix).data.dependsOnWorkOrderIds =
      x.data.dependsOnWorkOrderIds := by
    simp only [heapAt]
    rw [himm.2.2.2.2.2.2, hxe]
  have hmlne : ∀ d : String, d = x.docId ∨ d = y.docId →
      ∀ j ∈ scheduledOn (ensureKey st (heapAt st ix).data.workCenterId)
        (heapAt st ix).data.workCenterId,
      ((heapAt (ensureKey st (heapAt st ix).data.workCenterId) j).docId == d) = false := by
    intro d hd j hj
    obtain ⟨p, hp, hpk, hjp⟩ := scheduledOn_mem hj
    have hsched := hinv1.2.2.2.1 p hp j hjp
    cases hd with
    | inl hdx =>
      subst hdx
      exact beq_eq_false_iff_ne.2 (hns1 p hp j hjp)
    | inr hdy =>
      subst hdy
      simp only [heapAt]
      apply beq_eq_false_iff_ne.2
      intro hcontra
      have himmj := hinv1.2.1 j hsched.1
      have hjiy : j = iy := by
        apply docId_getD_inj hnodup hsched.1 hiylt
        rw [← himmj.1, hiyd]
        exact hcontra
      have hwcj : ((ensureKey st (heapAt st ix).data.workCenterId).heap.getD j
          dummyWo).data.workCenterId = y.data.workCenterId := by
        rw [himmj.2.2.2.1, hjiy, hiyd]
      rw [hsched.2, hpk] at hwcj
      rw [hxwc] at hwcj
      exact hwc hwcj
  simp only [reflowStep] at hstep
  split at hstep
  · rename_i hproc
    exfalso
    obtain ⟨j, hjml, hjbeq⟩ := List.any_eq_true.1 hproc
    have := hmlne (heapAt st ix).docId (Or.inl hxdoc) j hjml
    rw [this] at hjbeq
    cases hjbeq
  · split at hstep
    · cases hstep
    · rename_i unproc hcol
      split at hstep
      · simp only [Except.ok.injEq, Prod.mk.injEq] at hstep
        exact ⟨unproc, hstep.2.symm⟩
      · rename_i hempty
        exfalso
        have hemp : unproc = [] := by
          cases unproc with
          | nil => rfl
          | cons a as => simp at hempty
        have hmly : ((scheduledOn (ensureKey st (heapAt st ix).data.workCenterId)
            (heapAt st ix).data.workCenterId).any
              (fun j => ((heapAt (ensureKey st (heapAt st ix).data.workCenterId)
                j).docId == y.docId))) = false := by
          apply List.any_eq_false.2
          intro j hj
          rw [hmlne y.docId (Or.inr rfl) j hj]
          simp
        have hne := collectFold_nonempty
          (ensureKey st (heapAt st ix).data.workCenterId)
          (scheduledOn (ensureKey st (heapAt st ix).data.workCenterId)
            (heapAt st ix).data.workCenterId)
          (heapAt st ix)
          (heapAt st ix).data.dependsOnWorkOrderIds [] unproc y.docId
          (by rw [hxdeps]; exact hdep) hmly hcol
        exact hne hemp

/-- While the cross-machine-dependent order sits in the queue unplaced, the
worklist loop can only exit through the iteration cap. -/
theorem reflowLoop_stuck {wcs : List WorkCenter} {wcSched : List (String × List Nat)}
    {wos : List WorkOrder} {x y : WorkOrder} {ix : Nat}
    (hnodup : (wos.map (fun wo => wo.docId)).Nodup)
    (hix : ix < wos.length) (hxe : wos.getD ix dummyWo = x) (hymem : y ∈ wos)
    (hdep : y.docId ∈ x.data.dependsOnWorkOrderIds)
    (hwc : x.data.workCenterId ≠ y.data.workCenterId) :
    ∀ (fuel : Nat) (qu : List Nat) (st stF : RState) (capped : Bool),
      DriverInv wos st → NotScheduled x.docId st → ix ∈ qu →
      (∀ j ∈ qu, j < wos.length) →
      reflowLoop wcs wcSched fuel qu st = .ok (stF, capped) → capped = true := by
  intro fuel
  induction fuel with
  | zero =>
    intro qu st stF capped _ _ _ _ hok
    simp only [reflowLoop, Except.ok.injEq, Prod.mk.injEq] at hok
    exact hok.2.symm
  | succ n ih =>
    intro qu st stF capped hinv hns hmem hbound hok
    cases qu with
    | nil => cases hmem
    | cons i rest =>
      have hi : i < wos.length := hbound i (List.mem_cons_self i rest)
      simp only [reflowLoop] at hok
      split at hok
      · cases hok
      · rename_i st2 hstep
        have hstepinv := reflowStep_inv hinv hi hstep
        by_cases hiix : i = ix
        · exfalso
          subst hiix
          obtain ⟨u, hu⟩ :=
            reflowStep_requeues_stuck hinv hns hnodup hix hxe hymem hdep hwc hstep
          cases hu
        · have hixr : ix ∈ rest := by
            cases hmem with
            | head => exact absurd rfl hiix
            | tail _ hm2 => exact hm2
          have hnex : (heapAt st i).docId ≠ x.docId := by
            simp only [heapAt]
            rw [(hinv.2.1 i hi).1]
            intro hcontra
            apply hiix
            apply docId_getD_inj hnodup hi hix
            rw [hxe]
            exact hcontra
          exact ih rest st2 stF capped hstepinv.1
            (reflowStep_stuck hns hnex hstep) hixr
            (fun j hj => hbound j (List.mem_cons_of_mem i hj)) hok
      · rename_i st2 unproc hstep
        have hstepinv := reflowStep_inv hinv hi hstep
        have hns2 : NotScheduled x.docId st2 := reflowStep_stuck_requeue hns hstep
        have hmem2 : ix ∈ unproc ++ rest ++ [i] := by
          by_cases hiix : i = ix
          · subst hiix
            simp
          · have hixr : ix ∈ rest := by
              cases hmem with
              | head => exact absurd rfl hiix
              | tail _ hm2 => exact hm2
            simp [hixr]
        apply ih (unproc ++ rest ++ [i]) st2 stF capped hstepinv.1 hns2 hmem2 _ hok
        intro j hj
        simp only [List.mem_append, List.mem_singleton] at hj
        cases hj with
        | inl hj2 =>
          cases hj2 with
          | inl hju => exact hstepinv.2 unproc rfl j hju
          | inr hjr => exact hbound j (List.mem_cons_of_mem i hjr)
        | inr hji => subst hji; exact hi

/-- C10. A work order depending on an order of a different work center is
never placed: the placed-dependency check searches only the schedule list of
the dependent order itself, so the order is requeued on every visit, the
queue never empties, and any returned result is the iteration-cap result
with success=false, no schedule, no changes, and the max-iterations
explanation. Here acyclicity is taken as the detector of the code returning
no error, and docIds are assumed unique (they identify orders). -/
theorem reflow_cross_machine_dependency_hits_cap (wcs : List WorkCenter)
    (wos : List WorkOrder) (x y : WorkOrder) (r : ReflowResult)
    (hx : x ∈ wos) (hy : y ∈ wos)
    (hdep : y.docId ∈ x.data.dependsOnWorkOrderIds)
    (hwc : x.data.workCenterId ≠ y.data.workCenterId)
    (hnodup : (wos.map (fun wo => wo.docId)).Nodup)
    (hacyc : detectCircularDependencies wos = [])
    (hok : reflow wcs wos = .ok r) :
    r.success = false ∧ r.updatedWorkOrders = [] ∧ r.changes = [] ∧
    r.explanation =
      "Max iterations reached - possible infinite loop or circular dependency" := by
  obtain ⟨ix, hixlt, hixe⟩ := List.mem_iff_getElem.1 hx
  have hixd : wos.getD ix dummyWo = x := by
    simp [List.getD, List.getElem?_eq_getElem hixlt, hixe]
  simp only [reflow] at hok
  split at hok
  · rename_i hempty
    exfalso
    rw [List.isEmpty_iff] at hempty
    rw [hempty] at hx
    cases hx
  · split at hok
    · rename_i hcirc
      exfalso
      rw [hacyc] at hcirc
      simp at hcirc
    · split at hok
      · cases hok
      · rename_i stF capped hloop
        have hcap : capped = true := by
          apply reflowLoop_stuck hnodup hixlt hixd hy hdep hwc
            (wos.length * 100) (List.range wos.length) ⟨wos, [], []⟩ stF capped
            (driverInv_init wos) _ (List.mem_range.2 hixlt)
            (fun j hj => List.mem_range.1 hj) hloop
          intro p hp j hj
          cases hp
        subst hcap
        simp only [if_pos] at hok
        cases hok
        exact ⟨rfl, rfl, rfl, rfl⟩

/-- C10 witness: the concrete cross-machine pair runs into the cap. -/
theorem reflow_cross_machine_dependency_hits_cap_witness :
    resultSuccess (reflow [wcMachine, wcMachine2] [woCross, woCrossDep]) = false ∧
    resultUpdated (reflow [wcMachine, wcMachine2] [woCross, woCrossDep]) = [] ∧
    resultChanges (reflow [wcMachine, wcMachine2] [woCross, woCrossDep]) = [] := by
  have hrun : reflow [wcMachine, wcMachine2] [woCross, woCrossDep] =
      .ok { success := false, updatedWorkOrders := [], changes := [],
            explanation :=
              "Max iterations reached - possible infinite loop or circular dependency",
            errors := some ["Processing exceeded maximum iterations"] } := by rfl
  have := reflow_cross_machine_dependency_hits_cap [wcMachine, wcMachine2]
    [woCross, woCrossDep] woCross woCrossDep _ (by decide) (by decide) (by decide)
    (by decide) (by decide) (by decide) hrun
  rw [hrun]
  exact ⟨this.1, this.2.1, this.2.2.1⟩

/-! ## The cycle-detection analysis (C8)

A work order listing its own id among its dependencies makes the DFS re-enter
it one level deeper, where the id is on the current call path, so exactly one
error string with the suffix id -> id is pushed when its body runs, and the
driver returns the circular-dependency result. -/

/-- The error list holds a cycle string ending in a repeated id. -/
def HasCycleErr (a : String) (errs : List String) : Prop :=
  ∃ e ∈ errs, ∃ p, e = circErrString (p ++ [a, a])

theorem hasCycleErr_mono {a : String} {errs : List String} (t : List String)
    (h : HasCycleErr a errs) : HasCycleErr a (errs ++ t) := by
  obtain ⟨e, he, p, hp⟩ := h
  exact ⟨e, List.mem_append_left t he, p, hp⟩

/-- Errors only accumulate through one DFS level, provided the
one-level-deeper function also only accumulates. -/
theorem dfsStep_mono {wos : List WorkOrder}
    {deeper : List String → List String → List String × List String →
      Option (List String × List String)}
    (hdeeper : ∀ ids2 path2 vis2 errs2 v2 e2,
      deeper ids2 path2 (vis2, errs2) = some (v2, e2) → ∃ t, e2 = errs2 ++ t) :
    ∀ (ids path : List String) (vis errs v2 e2 : List String),
      dfsStep wos deeper ids path (vis, errs) = some (v2, e2) →
      ∃ t, e2 = errs ++ t := by
  intro ids
  induction ids with
  | nil =>
    intro path vis errs v2 e2 h
    simp only [dfsStep, Option.some.injEq, Prod.mk.injEq] at h
    exact ⟨[], by rw [← h.2, List.append_nil]⟩
  | cons woId rest ih =>
    intro path vis errs v2 e2 h
    simp only [dfsStep] at h
    split at h
    · obtain ⟨t, ht⟩ := ih path vis (errs ++ [circErrString (path ++ [woId])]) v2 e2 h
      exact ⟨[circErrString (path ++ [woId])] ++ t, by rw [ht, List.append_assoc]⟩
    · split at h
      · exact ih path vis errs v2 e2 h
      · split at h
        · cases h
        · rename_i inner hinner
          obtain ⟨v1, e1⟩ := inner
          obtain ⟨t1, ht1⟩ := hdeeper _ _ _ _ _ _ hinner
          obtain ⟨t2, ht2⟩ := ih path (v1 ++ [woId]) e1 v2 e2 h
          exact ⟨t1 ++ t2, by rw [ht2, ht1, List.append_assoc]⟩

theorem dfsL_mono {wos : List WorkOrder} :
    ∀ (fuel : Nat) (ids path : List String) (vis errs v2 e2 : List String),
      dfsL wos fuel ids path (vis, errs) = some (v2, e2) → ∃ t, e2 = errs ++ t := by
  intro fuel
  induction fuel with
  | zero =>
    intro ids path vis errs v2 e2 h
    cases ids with
    | nil =>
      simp only [dfsL, Option.some.injEq, Prod.mk.injEq] at h
      exact ⟨[], by rw [← h.2, List.append_nil]⟩
    | cons a as => cases h
  | succ n ih =>
    intro ids path vis errs v2 e2 h
    simp only [dfsL] at h
    exact dfsStep_mono (fun i2 p2 vs2 er2 vv2 ee2 => ih i2 p2 vs2 er2 vv2 ee2)
      ids path vis errs v2 e2 h

/-- When the call path already ends in the id, processing that id among the
pending ids records the cycle error with the doubled id. -/
theorem dfsL_hit {wos : List WorkOrder} {a : String} :
    ∀ (fuel : Nat) (ids q : List String) (vis errs v2 e2 : List String),
      dfsL wos fuel ids (q ++ [a]) (vis, errs) = some (v2, e2) → a ∈ ids →
      HasCycleErr a e2 := by
  intro fuel
  induction fuel with
  | zero =>
    intro ids q vis errs v2 e2 h ha
    cases ids with
    | nil => cases ha
    | cons i is => cases h
  | succ n ihf =>
    intro ids
    induction ids with
    | nil =>
      intro q vis errs v2 e2 h ha
      cases ha
    | cons woId rest ihl =>
      intro q vis errs v2 e2 h ha
      simp only [dfsL, dfsStep] at h
      split at h
      · by_cases hwa : woId = a
        · subst hwa
          have hpush : HasCycleErr woId
              (errs ++ [circErrString ((q ++ [woId]) ++ [woId])]) := by
            refine ⟨circErrString ((q ++ [woId]) ++ [woId]), by simp, q, ?_⟩
            rw [List.append_assoc]
            rfl
          obtain ⟨t, ht⟩ := dfsStep_mono
            (fun i2 p2 vs2 er2 vv2 ee2 => dfsL_mono n i2 p2 vs2 er2 vv2 ee2)
            rest (q ++ [woId]) vis _ v2 e2 h
          rw [ht]
          exact hasCycleErr_mono t hpush
        · have ha2 : a ∈ rest := by
            cases ha with
            | head => exact absurd rfl hwa
            | tail _ hm => exact hm
          exact ihl q vis _ v2 e2 h ha2
      · rename_i hnp
        have hwa : woId ≠ a := by
          intro hcontra
          subst hcontra
          exact hnp (by simp)
        have ha2 : a ∈ rest := by
          cases ha with
          | head => exact absurd rfl hwa
          | tail _ hm => exact hm
        split at h
        · exact ihl q vis errs v2 e2 h ha2
        · split at h
          · cases h
          · rename_i inner hinner
            obtain ⟨v1, e1⟩ := inner
            exact ihl q (v1 ++ [woId]) e1 v2 e2 h ha2

/-- The id has a woMap entry that lists the id itself as a dependency. -/
def SelfDep (wos : List WorkOrder) (a : String) : Prop :=
  ∃ wo, woMapGet wos a = some wo ∧ a ∈ wo.data.dependsOnWorkOrderIds

/-- Main induction: once a self-dependent id is pending (or already visited
with its error recorded), the final error list holds its cycle error. -/
theorem dfsL_self {wos : List WorkOrder} {a : String} (hsd : SelfDep wos a) :
    ∀ (fuel : Nat) (ids path : List String) (vis errs v2 e2 : List String),
      dfsL wos fuel ids path (vis, errs) = some (v2, e2) → a ∉ path →
      (a ∈ vis → HasCycleErr a errs) →
      ((a ∈ v2 → HasCycleErr a e2) ∧ (a ∈ ids → HasCycleErr a e2)) := by
  intro fuel
  induction fuel with
  | zero =>
    intro ids path vis errs v2 e2 h hnp hvis
    cases ids with
    | nil =>
      simp only [dfsL, Option.some.injEq, Prod.mk.injEq] at h
      rw [← h.1, ← h.2]
      exact ⟨hvis, fun ha => by cases ha⟩
    | cons i is => cases h
  | succ n ihf =>
    intro ids
    induction ids with
    | nil =>
      intro path vis errs v2 e2 h hnp hvis
      simp only [dfsL, dfsStep, Option.some.injEq, Prod.mk.injEq] at h
      rw [← h.1, ← h.2]
      exact ⟨hvis, fun ha => by cases ha⟩
    | cons woId rest ihl =>
      intro path vis errs v2 e2 h hnp hvis
      simp only [dfsL, dfsStep] at h
      have hrestL : ∀ (vis3 errs3 : List String),
          dfsL wos (n + 1) rest path (vis3, errs3) = some (v2, e2) →
          (a ∈ vis3 → HasCycleErr a errs3) →
          ((a ∈ v2 → HasCycleErr a e2) ∧ (a ∈ rest → HasCycleErr a e2)) :=
        fun vis3 errs3 hh hv => ihl path vis3 errs3 v2 e2
          (by simpa [dfsL] using hh) hnp hv
      split at h
      · rename_i hinpath
        have hinpath2 : woId ∈ path := by simpa using hinpath
        have hwa : woId ≠ a := fun hcontra => hnp (hcontra ▸ hinpath2)
        have hres := hrestL vis (errs ++ [circErrString (path ++ [woId])])
          (by simpa [dfsL] using h)
          (fun hv => hasCycleErr_mono _ (hvis hv))
        refine ⟨hres.1, fun ha => ?_⟩
        cases ha with
        | head => exact absurd rfl hwa
        | tail _ hm => exact hres.2 hm
      · split at h
        · rename_i hinvis
          by_cases hwa : woId = a
          · subst hwa
            have hhc : HasCycleErr woId errs := hvis (by simpa using hinvis)
            obtain ⟨t, ht⟩ := dfsL_mono (n + 1) rest path vis errs v2 e2
              (by simpa [dfsL] using h)
            rw [ht]
            exact ⟨fun _ => hasCycleErr_mono t hhc, fun _ => hasCycleErr_mono t hhc⟩
          · have hres := hrestL vis errs (by simpa [dfsL] using h) hvis
            refine ⟨hres.1, fun ha => ?_⟩
            cases ha with
            | head => exact absurd rfl hwa
            | tail _ hm => exact hres.2 hm
        · split at h
          · cases h
          · rename_i hninp hninv inner hinner
            obtain ⟨v1, e1⟩ := inner
            by_cases hwa : woId = a
            · subst hwa
              obtain ⟨wo, hwo, hdep⟩ := hsd
              rw [hwo] at hinner
              have hhit : HasCycleErr woId e1 :=
                dfsL_hit n wo.data.dependsOnWorkOrderIds path vis errs v1 e1
                  hinner hdep
              obtain ⟨t, ht⟩ := dfsL_mono (n + 1) rest path (v1 ++ [woId]) e1 v2 e2
                (by simpa [dfsL] using h)
              rw [ht]
              exact ⟨fun _ => hasCycleErr_mono t hhit,
                fun _ => hasCycleErr_mono t hhit⟩
            · have hinner2 := ihf _ _ vis errs v1 e1 hinner
                (by
                  intro hcontra
                  simp only [List.mem_append, List.mem_singleton] at hcontra
                  cases hcontra with
                  | inl hin => exact hnp hin
                  | inr heq => exact hwa heq.symm)
                hvis
              have hres := hrestL (v1 ++ [woId]) e1 (by simpa [dfsL] using h)
                (fun hv => by
                  simp only [List.mem_append, List.mem_singleton] at hv
                  cases hv with
                  | inl hin => exact hinner2.1 hin
                  | inr heq => exact absurd heq.symm hwa)
              refine ⟨hres.1, fun ha => ?_⟩
              cases ha with
              | head => exact absurd rfl hwa
              | tail _ hm => exact hres.2 hm

theorem mem_depsFoldr {wos : List WorkOrder} {wo : WorkOrder} (h : wo ∈ wos)
    {d : String} (hd : d ∈ wo.data.dependsOnWorkOrderIds) :
    d ∈ wos.foldr (fun w acc => w.data.dependsOnWorkOrderIds ++ acc) [] := by
  induction wos with
  | nil => cases h
  | cons w ws ih =>
    simp only [List.foldr_cons, List.mem_append]
    cases h with
    | head => exact Or.inl hd
    | tail _ hmem => exact Or.inr (ih hmem)

theorem deps_subset_allIds {wos : List WorkOrder} {wo : WorkOrder} (hwo : wo ∈ wos) :
    ∀ d ∈ wo.data.dependsOnWorkOrderIds, d ∈ allIds wos := by
  intro d hd
  unfold allIds
  exact List.mem_append_right _ (mem_depsFoldr hwo hd)

theorem card_sdiff_lt_of_append {l path : List String} {x : String}
    (hx : x ∈ l) (hnp : x ∉ path) :
    (l.toFinset \ (path ++ [x]).toFinset).card < (l.toFinset \ path.toFinset).card := by
  apply Finset.card_lt_card
  constructor
  · intro y hy
    simp only [Finset.mem_sdiff, List.mem_toFinset, List.mem_append,
      List.mem_singleton] at hy ⊢
    exact ⟨hy.1, fun hc => hy.2 (Or.inl hc)⟩
  · intro hsup
    have hxmem : x ∈ l.toFinset \ path.toFinset := by
      simp only [Finset.mem_sdiff, List.mem_toFinset]
      exact ⟨hx, hnp⟩
    have := hsup hxmem
    simp only [Finset.mem_sdiff, List.mem_toFinset, List.mem_append,
      List.mem_singleton] at this
    exact this.2 (Or.inr trivial)

/-- The DFS depth is bounded by the number of candidate ids not yet on the
path, so the fuel of detectCircularDependencies is never exhausted. -/
theorem dfsL_isSome {wos : List WorkOrder} :
    ∀ (fuel : Nat) (ids path : List String) (st : List String × List String),
      (∀ id ∈ ids, id ∈ allIds wos) →
      ((allIds wos).toFinset \ path.toFinset).card < fuel →
      (dfsL wos fuel ids path st).isSome := by
  intro fuel
  induction fuel with
  | zero =>
    intro ids path st hsub hcard
    omega
  | succ n ihf =>
    intro ids
    induction ids with
    | nil =>
      intro path st hsub hcard
      simp [dfsL, dfsStep]
    | cons woId rest ihl =>
      intro path st hsub hcard
      obtain ⟨vis, errs⟩ := st
      simp only [dfsL, dfsStep]
      split
      · exact ihl path (vis, errs ++ [circErrString (path ++ [woId])])
          (fun id hid => hsub id (List.mem_cons_of_mem woId hid)) hcard
      · split
        · exact ihl path (vis, errs)
            (fun id hid => hsub id (List.mem_cons_of_mem woId hid)) hcard
        · rename_i hninp hninv
          have hnp : woId ∉ path := by
            intro hc
            exact hninp (by simpa using hc)
          have hinner : (dfsL wos n
              (match woMapGet wos woId with
                | some wo => wo.data.dependsOnWorkOrderIds
                | none => []) (path ++ [woId]) (vis, errs)).isSome := by
            apply ihf
            · intro id hid
              cases hget : woMapGet wos woId with
              | none =>
                rw [hget] at hid
                cases hid
              | some wo =>
                rw [hget] at hid
                have hwomem : wo ∈ wos := by
                  have := List.mem_of_find?_eq_some hget
                  exact List.mem_reverse.1 this
                exact deps_subset_allIds hwomem id hid
            · have := card_sdiff_lt_of_append
                (hsub woId (List.mem_cons_self woId rest)) hnp
              omega
          obtain ⟨st2, hst2⟩ := Option.isSome_iff_exists.1 hinner
          rw [hst2]
          exact ihl path (st2.1 ++ [woId], st2.2)
            (fun id hid => hsub id (List.mem_cons_of_mem woId hid)) hcard

theorem woMapGet_self {wos : List WorkOrder}
    (hnodup : (wos.map (fun w => w.docId)).Nodup) {wo : WorkOrder} (h : wo ∈ wos) :
    woMapGet wos wo.docId = some wo := by
  unfold woMapGet
  cases hfind : wos.reverse.find? (fun w => w.docId == wo.docId) with
  | none =>
    exfalso
    have := List.find?_eq_none.1 hfind wo (List.mem_reverse.2 h)
    simp at this
  | some w =>
    have hw : w ∈ wos := List.mem_reverse.1 (List.mem_of_find?_eq_some hfind)
    have hbeq : w.docId = wo.docId := by
      have := List.find?_some hfind
      simpa using this
    obtain ⟨i, hi, hie⟩ := List.mem_iff_getElem.1 hw
    obtain ⟨j, hj, hje⟩ := List.mem_iff_getElem.1 h
    have hid : wos.getD i dummyWo = w := by
      simp [List.getD, List.getElem?_eq_getElem hi, hie]
    have hjd : wos.getD j dummyWo = wo := by
      simp [List.getD, List.getElem?_eq_getElem hj, hje]
    have hij : i = j := by
      apply docId_getD_inj hnodup hi hj
      rw [hid, hjd]
      exact hbeq
    rw [← hid, hij, hjd]

/-- A self-dependent work order always surfaces in the detector output. -/
theorem detectCircular_hasCycleErr {wos : List WorkOrder} {wo : WorkOrder}
    (hmem : wo ∈ wos) (hself : wo.docId ∈ wo.data.dependsOnWorkOrderIds)
    (hnodup : (wos.map (fun w => w.docId)).Nodup) :
    HasCycleErr wo.docId (detectCircularDependencies wos) := by
  unfold detectCircularDependencies
  have hsome : (dfsL wos ((allIds wos).length + 1)
      (wos.map (fun w => w.docId)) [] ([], [])).isSome := by
    apply dfsL_isSome
    · intro id hid
      unfold allIds
      exact List.mem_append_left _ hid
    · have h1 : ((allIds wos).toFinset \ ([] : List String).toFinset).card =
          (allIds wos).toFinset.card := by
        simp
      rw [h1]
      have := List.toFinset_card_le (allIds wos)
      omega
  obtain ⟨st2, hst2⟩ := Option.isSome_iff_exists.1 hsome
  obtain ⟨v, e⟩ := st2
  rw [hst2]
  have hsd : SelfDep wos wo.docId := ⟨wo, woMapGet_self hnodup hmem, hself⟩
  have := dfsL_self hsd ((allIds wos).length + 1) (wos.map (fun w => w.docId))
    [] [] [] v e hst2 (by simp) (fun ha => absurd ha (List.not_mem_nil _))
  exact this.2 (List.mem_map.2 ⟨wo, hmem, rfl⟩)

/-- C8. An input containing a work order that lists its own id among its
dependencies (ids unique) makes reflow return the circular-dependency
result: success=false, empty schedule and changes, and the errors contain
one string of the form Circular dependency detected: ... -> id -> id. -/
theorem reflow_self_dependency_reports_cycle (wcs : List WorkCenter)
    (wos : List WorkOrder) (wo : WorkOrder) (hmem : wo ∈ wos)
    (hself : wo.docId ∈ wo.data.dependsOnWorkOrderIds)
    (hnodup : (wos.map (fun w => w.docId)).Nodup) :
    reflow wcs wos =
      .ok { success := false, updatedWorkOrders := [], changes := [],
            explanation := "Cannot reflow: circular dependencies detected",
            errors := some (detectCircularDependencies wos) } ∧
    ∃ e ∈ detectCircularDependencies wos, ∃ p,
      e = circErrString (p ++ [wo.docId, wo.docId]) := by
  have hcyc := detectCircular_hasCycleErr hmem hself hnodup
  obtain ⟨e, he, p, hp⟩ := hcyc
  constructor
  · have h1 : wos.isEmpty = false := by
      cases wos with
      | nil => cases hmem
      | cons w ws => rfl
    have h2 : (detectCircularDependencies wos).isEmpty = false := by
      cases hdet : detectCircularDependencies wos with
      | nil =>
        rw [hdet] at he
        cases he
      | cons f fs => rfl
    simp only [reflow, h1, h2, Bool.false_eq_true, if_false, Bool.not_false, if_true]
  · exact ⟨e, he, p, hp⟩

/-- C8 witness: the one-order self-cycle yields exactly the doubled-id
error string. -/
theorem reflow_self_dependency_reports_cycle_witness :
    reflow [wcMachine] [woSelf] =
      .ok { success := false, updatedWorkOrders := [], changes := [],
            explanation := "Cannot reflow: circular dependencies detected",
            errors := some (detectCircularDependencies [woSelf]) } ∧
    ∃ e ∈ detectCircularDependencies [woSelf], ∃ p,
      e = circErrString (p ++ [woSelf.docId, woSelf.docId]) :=
  reflow_self_dependency_reports_cycle [wcMachine] [woSelf] woSelf (by decide)
    (by decide) (by decide)

/-! ## Completeness of the change log (C9)

A heap object is rewritten exactly when its position is placed, and the
driver appends one change entry at that moment precisely when the
serialised strings changed. Schedule keys are pairwise distinct (a key is
created only on first touch), which ties membership in any schedule pair to
the list the hasBeenProcessed guard searches; hence an order reaching the
placement branch is unplaced and untouched, and a placed non-maintenance
order whose serialised dates differ from its input object's always owns a
change entry documenting the rewrite. -/

/-- A heap position recorded somewhere in the schedule. -/
def Placed (st : RState) (i : Nat) : Prop :=
  ∃ p ∈ st.schedule, i ∈ p.2

/-- A change entry documenting the rewrite of position i: the old dates of
the input object, the new dates of the heap object. -/
def ChangeDone (wos : List WorkOrder) (st : RState) (i : Nat) : Prop :=
  ∃ c ∈ st.changes, c.workOrderId = (wos.getD i dummyWo).docId ∧
    c.oldStart = (wos.getD i dummyWo).data.startDate ∧
    c.oldEnd = (wos.getD i dummyWo).data.endDate ∧
    c.newStart = (heapAt st i).data.startDate ∧
    c.newEnd = (heapAt st i).data.endDate

/-- The completeness invariant: schedule keys are distinct, an unplaced
position still holds its input object, and a placed non-maintenance
position whose serialised dates differ from the input object's has a change
entry documenting the rewrite. -/
def CInv (wos : List WorkOrder) (st : RState) : Prop :=
  (st.schedule.map Prod.fst).Nodup ∧
  (∀ i, ¬ Placed st i → st.heap.getD i dummyWo = wos.getD i dummyWo) ∧
  (∀ p ∈ st.schedule, ∀ i ∈ p.2,
    (heapAt st i).data.isMaintenance = false →
    ((wos.getD i dummyWo).data.startDate.repr ≠ (heapAt st i).data.startDate.repr ∨
      (wos.getD i dummyWo).data.endDate.repr ≠ (heapAt st i).data.endDate.repr) →
    ChangeDone wos st i)

theorem cinv_init (wos : List WorkOrder) : CInv wos ⟨wos, [], []⟩ := by
  refine ⟨List.nodup_nil, ?_, ?_⟩
  · intro i _
    rfl
  · intro p hp
    cases hp

theorem pushA_keys (l : List (String × List Nat)) (k : String) (v : Nat) :
    (pushA l k v).map Prod.fst = l.map Prod.fst := by
  simp only [pushA, List.map_map]
  apply List.map_congr_left
  intro p _
  simp only [Function.comp]
  split
  · rfl
  · rfl

theorem find?_key_of_nodup :
    ∀ {l : List (String × List Nat)} {p : String × List Nat},
      (l.map Prod.fst).Nodup → p ∈ l →
      l.find? (fun q => q.1 == p.1) = some p := by
  intro l
  induction l with
  | nil =>
    intro p _ hp
    cases hp
  | cons q qs ih =>
    intro p hnd hp
    simp only [List.map_cons, List.nodup_cons] at hnd
    cases hp with
    | head =>
      exact List.find?_cons_of_pos _ (by simp)
    | tail _ hp2 =>
      have hne : (q.1 == p.1) = false := by
        apply beq_eq_false_iff_ne.2
        intro he
        exact hnd.1 (he ▸ List.mem_map_of_mem Prod.fst hp2)
      rw [List.find?_cons_of_neg _ (by simp [hne])]
      exact ih hnd.2 hp2

theorem placed_of_scheduledOn {st : RState} {k : String} {j : Nat}
    (h : j ∈ scheduledOn st k) : Placed st j := by
  obtain ⟨p, hp, _, hjp⟩ := scheduledOn_mem h
  exact ⟨p, hp, hjp⟩

/-- A position placed on its own machine is seen by the hasBeenProcessed
guard: the guard searches the first schedule pair of the machine key, which
by key distinctness is the pair holding the position. -/
theorem notPlaced_of_guard {wos : List WorkOrder} {st : RState} {i : Nat} {k : String}
    (hdi : DriverInv wos st) (hnd : (st.schedule.map Prod.fst).Nodup)
    (hkeq : (heapAt st i).data.workCenterId = k)
    (hg : (scheduledOn st k).any
      (fun j => (heapAt st j).docId == (heapAt st i).docId) = false) :
    ¬ Placed st i := by
  intro hp
  obtain ⟨p, hpmem, hip⟩ := hp
  have hkey2 := (hdi.2.2.2.1 p hpmem i hip).2
  have hpk : p.1 = k := by
    rw [← hkeq]
    exact hkey2.symm
  have hfind : st.schedule.find? (fun q => q.1 == p.1) = some p :=
    find?_key_of_nodup hnd hpmem
  have hmem : i ∈ scheduledOn st k := by
    simp only [scheduledOn, lookupA]
    rw [← hpk, hfind]
    simpa using hip
  have := List.any_eq_false.1 hg i hmem
  simp at this

/-- After ensureKey the key is present in the schedule. -/
theorem ensureKey_finds (st : RState) (k : String) :
    ((ensureKey st k).schedule.find? (fun p => p.1 == k)).isSome := by
  unfold ensureKey
  split
  · rename_i hs
    exact hs
  · exact List.find?_isSome.2
      ⟨(k, []), List.mem_append_right _ (List.mem_singleton.2 rfl), by simp⟩

/-- Lift a documented rewrite along an unchanged heap position and a grown
change log. -/
theorem changeDone_lift {wos : List WorkOrder} {st st4 : RState} {j : Nat}
    (h : ChangeDone wos st j) (hh : heapAt st4 j = heapAt st j)
    (hsub : ∀ c ∈ st.changes, c ∈ st4.changes) : ChangeDone wos st4 j := by
  obtain ⟨c, hc, e1, e2, e3, e4, e5⟩ := h
  refine ⟨c, hsub c hc, e1, e2, e3, ?_, ?_⟩
  · rw [hh]
    exact e4
  · rw [hh]
    exact e5

theorem ensureKey_cinv {wos : List WorkOrder} {st : RState} (h : CInv wos st)
    (wcId : String) : CInv wos (ensureKey st wcId) := by
  obtain ⟨h0, h1, h2⟩ := h
  unfold ensureKey
  split
  · exact ⟨h0, h1, h2⟩
  · rename_i hno
    refine ⟨?_, ?_, ?_⟩
    · show ((st.schedule ++ [(wcId, [])]).map Prod.fst).Nodup
      rw [List.map_append, List.nodup_append]
      refine ⟨h0, by simp, ?_⟩
      intro a ha hb
      simp only [List.map_cons, List.map_nil, List.mem_singleton] at hb
      subst hb
      obtain ⟨p, hp, hpe⟩ := List.mem_map.1 ha
      apply hno
      exact List.find?_isSome.2 ⟨p, hp, by simp [hpe]⟩
    · intro j hnp
      apply h1
      intro hpl
      apply hnp
      obtain ⟨p, hp, hjp⟩ := hpl
      exact ⟨p, List.mem_append_left _ hp, hjp⟩
    · intro p hp j hjp hm hd
      rcases List.mem_append.1 hp with hold | hnew
      · exact h2 p hold j hjp hm hd
      · have hpe : p = (wcId, []) := by simpa using hnew
        subst hpe
        cases hjp

theorem addToWorkCenterSchedule_cinv {wos : List WorkOrder} {st : RState} {i : Nat}
    (h : CInv wos st)
    (hnew : (heapAt st i).data.isMaintenance = false →
      ((wos.getD i dummyWo).data.startDate.repr ≠ (heapAt st i).data.startDate.repr ∨
        (wos.getD i dummyWo).data.endDate.repr ≠ (heapAt st i).data.endDate.repr) →
      ChangeDone wos st i) :
    CInv wos (addToWorkCenterSchedule st i) := by
  obtain ⟨h0, h1, h2⟩ := h
  simp only [addToWorkCenterSchedule]
  split
  · exact ⟨h0, h1, h2⟩
  · refine ⟨?_, ?_, ?_⟩
    · show ((pushA st.schedule (heapAt st i).data.workCenterId i).map Prod.fst).Nodup
      rw [pushA_keys]
      exact h0
    · intro j hnp
      apply h1
      intro hpl
      apply hnp
      obtain ⟨p, hp, hjp⟩ := hpl
      refine ⟨(fun q => if q.1 == (heapAt st i).data.workCenterId
          then (q.1, q.2 ++ [i]) else q) p, List.mem_map_of_mem _ hp, ?_⟩
      show j ∈ (if (p.1 == (heapAt st i).data.workCenterId) = true
          then (p.1, p.2 ++ [i]) else p).2
      by_cases hk : (p.1 == (heapAt st i).data.workCenterId) = true
      · rw [if_pos hk]
        exact List.mem_append_left _ hjp
      · rw [if_neg hk]
        exact hjp
    · intro p hp j hjp hm hd
      simp only [pushA, List.mem_map] at hp
      obtain ⟨q, hq, hqe⟩ := hp
      by_cases hk : (q.1 == (heapAt st i).data.workCenterId) = true
      · rw [if_pos hk] at hqe
        subst hqe
        rcases List.mem_append.1 hjp with hold | hji
        · exact h2 q hq j hold hm hd
        · have hji2 : j = i := by simpa using hji
          subst hji2
          exact hnew hm hd
      · rw [if_neg (by simp [hk])] at hqe
        subst hqe
        exact h2 q hq j hjp hm hd

/-- The completeness invariant after the placement writes of one order: the
schedule gained position i under its key, the object at i was rewritten
while every other position kept its object, and the change log covers the
rewrite of i. -/
theorem cinv_place {wos : List WorkOrder} {st1 st4 : RState} {i : Nat} {k : String}
    (hc : CInv wos st1)
    (hnp : ¬ Placed st1 i)
    (hkey : (st1.schedule.find? (fun p => p.1 == k)).isSome)
    (hsched : st4.schedule = pushA st1.schedule k i)
    (hhne : ∀ j, j ≠ i → heapAt st4 j = heapAt st1 j)
    (hsub : ∀ c ∈ st1.changes, c ∈ st4.changes)
    (hok : (heapAt st4 i).data.isMaintenance = false →
      ((wos.getD i dummyWo).data.startDate.repr ≠ (heapAt st4 i).data.startDate.repr ∨
        (wos.getD i dummyWo).data.endDate.repr ≠ (heapAt st4 i).data.endDate.repr) →
      ChangeDone wos st4 i) :
    CInv wos st4 := by
  obtain ⟨h0, h1, h2⟩ := hc
  have hplacedi : Placed st4 i := by
    obtain ⟨p0, hp0⟩ := Option.isSome_iff_exists.1 hkey
    have hp0mem : p0 ∈ st1.schedule := List.mem_of_find?_eq_some hp0
    have hp0k : (p0.1 == k) = true := by
      have := List.find?_some hp0
      simpa using this
    refine ⟨(p0.1, p0.2 ++ [i]), ?_, ?_⟩
    · rw [hsched]
      have he : (fun q => if q.1 == k then (q.1, q.2 ++ [i]) else q) p0 =
          (p0.1, p0.2 ++ [i]) := by
        show (if (p0.1 == k) = true then (p0.1, p0.2 ++ [i]) else p0) =
          (p0.1, p0.2 ++ [i])
        rw [if_pos hp0k]
      rw [← he]
      exact List.mem_map_of_mem _ hp0mem
    · exact List.mem_append_right _ (List.mem_singleton.2 rfl)
  refine ⟨?_, ?_, ?_⟩
  · rw [hsched, pushA_keys]
    exact h0
  · intro j hnp4
    have hji : j ≠ i := by
      intro he
      subst he
      exact hnp4 hplacedi
    have hnp1 : ¬ Placed st1 j := by
      intro hpl
      apply hnp4
      obtain ⟨p, hp, hjp⟩ := hpl
      refine ⟨(fun q => if q.1 == k then (q.1, q.2 ++ [i]) else q) p, ?_, ?_⟩
      · rw [hsched]
        exact List.mem_map_of_mem _ hp
      · show j ∈ (if (p.1 == k) = true then (p.1, p.2 ++ [i]) else p).2
        by_cases hk2 : (p.1 == k) = true
        · rw [if_pos hk2]
          exact List.mem_append_left _ hjp
        · rw [if_neg hk2]
          exact hjp
    have hval := h1 j hnp1
    have hh := hhne j hji
    simp only [heapAt] at hh
    rw [hh]
    exact hval
  · intro p hp j hjp hm hd
    rw [hsched] at hp
    simp only [pushA, List.mem_map] at hp
    obtain ⟨q, hq, hqe⟩ := hp
    have hmain : j ∈ q.2 → ChangeDone wos st4 j := by
      intro hjq
      have hpl1 : Placed st1 j := ⟨q, hq, hjq⟩
      have hji : j ≠ i := by
        intro he
        subst he
        exact hnp hpl1
      have hh := hhne j hji
      have hm1 : (heapAt st1 j).data.isMaintenance = false := by
        rw [← hh]
        exact hm
      have hd1 : (wos.getD j dummyWo).data.startDate.repr ≠
            (heapAt st1 j).data.startDate.repr ∨
          (wos.getD j dummyWo).data.endDate.repr ≠
            (heapAt st1 j).data.endDate.repr := by
        rw [← hh]
        exact hd
      exact changeDone_lift (h2 q hq j hjq hm1 hd1) hh hsub
    by_cases hk2 : (q.1 == k) = true
    · rw [if_pos hk2] at hqe
      subst hqe
      rcases List.mem_append.1 hjp with hold | hji
      · exact hmain hold
      · have hji2 : j = i := by simpa using hji
        subst hji2
        exact hok hm hd
    · rw [if_neg (by simp [hk2])] at hqe
      subst hqe
      exact hmain hjp

theorem updateDates_wcId (st : RState) (i j : Nat) (ns ne : DateStr) :
    ((updateDates st i ns ne).heap.getD j dummyWo).data.workCenterId =
      (st.heap.getD j dummyWo).data.workCenterId := by
  by_cases hcase : j = i
  · subst hcase
    by_cases hlen : j < st.heap.length
    · simp only [updateDates]
      rw [getD_set_self _ _ _ _ hlen]
      rfl
    · simp only [updateDates]
      rw [List.getD_eq_default _ _ (by simpa using (Nat.le_of_not_lt hlen)),
        List.getD_eq_default _ _ (Nat.le_of_not_lt hlen)]
  · simp only [updateDates]
    rw [getD_set_ne _ _ _ _ _ (fun he => hcase he.symm)]

/-- One placement through placeOrder preserves the completeness invariant:
the order was unplaced (hence untouched) by the hasBeenProcessed guard, its
object is rewritten to the serialised new dates, and the change entry is
appended exactly when the serialised strings changed. -/
theorem placeOrder_cinv {wcs : List WorkCenter} {wcSched : List (String × List Nat)}
    {wos : List WorkOrder} {st1 : RState} {i : Nat} {order : WorkOrder} {st4 : RState}
    {k : String}
    (hdi : DriverInv wos st1) (hc : CInv wos st1)
    (hi : i < wos.length) (hord : order = heapAt st1 i)
    (hkeq : (heapAt st1 i).data.workCenterId = k)
    (hg : (scheduledOn st1 k).any
      (fun j => (heapAt st1 j).docId == order.docId) = false)
    (hkey : (st1.schedule.find? (fun p => p.1 == k)).isSome)
    (hok : placeOrder wcs wcSched st1 i order = .ok st4) :
    CInv wos st4 := by
  have hilen : i < st1.heap.length := by
    rw [hdi.1]
    exact hi
  rw [hord] at hg
  have hnp : ¬ Placed st1 i := notPlaced_of_guard hdi hc.1 hkeq hg
  have horig : heapAt st1 i = wos.getD i dummyWo := hc.2.1 i hnp
  simp only [placeOrder] at hok
  split at hok
  · cases hok
  · rename_i workCenter hfindwc
    split at hok
    · cases hok
    · rename_i snapped hsnap
      split at hok
      · cases hok
      · rename_i newStartT hres
        split at hok
        · cases hok
        · rename_i newEndT hcalc
          set u2 := updateDates st1 i (canonDS newStartT) (canonDS newEndT) with hu2
          set a3 := addToWorkCenterSchedule u2 i with ha3
          have hwcid2 : (heapAt u2 i).data.workCenterId = k := by
            simp only [heapAt]
            rw [hu2, updateDates_wcId]
            exact hkeq
          have hsch_eq : scheduledOn u2 ((heapAt u2 i).data.workCenterId) =
              scheduledOn st1 k := by
            rw [hwcid2]
            rfl
          have halready : ((scheduledOn u2 ((heapAt u2 i).data.workCenterId)).any
              (fun j => (heapAt u2 j).docId == (heapAt u2 i).docId)) = false := by
            rw [hsch_eq]
            apply List.any_eq_false.2
            intro j hj
            intro hcc
            have hplj : Placed st1 j := placed_of_scheduledOn hj
            have hjne : j ≠ i := fun he => hnp (he ▸ hplj)
            have hdj : (heapAt u2 j).docId = (heapAt st1 j).docId := by
              simp only [heapAt]
              rw [hu2]
              exact updateDates_docId st1 i j _ _
            have hdi2 : (heapAt u2 i).docId = (heapAt st1 i).docId := by
              simp only [heapAt]
              rw [hu2]
              exact updateDates_docId st1 i i _ _
            rw [hdj, hdi2] at hcc
            exact (List.any_eq_false.1 hg j hj) hcc
          have hadd : a3 = { u2 with
              schedule := pushA u2.schedule ((heapAt u2 i).data.workCenterId) i } := by
            rw [ha3]
            simp only [addToWorkCenterSchedule]
            rw [if_neg (fun hcc => by rw [halready] at hcc; cases hcc)]
          have hsched3 : a3.schedule = pushA st1.schedule k i := by
            rw [hadd, hwcid2]
            rfl
          have hheap3 : a3.heap = u2.heap := by
            rw [ha3]
            exact addToWorkCenterSchedule_heap u2 i
          have hchg3 : a3.changes = st1.changes := by
            rw [hadd]
            rfl
          have hhne3 : ∀ j, j ≠ i → heapAt a3 j = heapAt st1 j := by
            intro j hj
            simp only [heapAt]
            rw [hheap3, hu2]
            simp only [updateDates]
            exact getD_set_ne _ _ _ _ _ (fun he => hj he.symm)
          have hself3 : heapAt a3 i = { heapAt st1 i with
              data := { (heapAt st1 i).data with
                startDate := canonDS newStartT, endDate := canonDS newEndT } } := by
            simp only [heapAt]
            rw [hheap3, hu2]
            simp only [updateDates]
            exact getD_set_self _ _ _ _ hilen
          simp only [Except.ok.injEq] at hok
          split at hok
          · rename_i hch
            subst hok
            apply cinv_place hc hnp hkey
            · exact hsched3
            · intro j hj
              have := hhne3 j hj
              simpa only [heapAt] using this
            · intro c hcm
              apply List.mem_append_left
              rw [hchg3]
              exact hcm
            · intro _ _
              refine ⟨_, List.mem_append_right _ (List.mem_singleton.2 rfl),
                ?_, ?_, ?_, ?_, ?_⟩
              · show order.docId = (wos.getD i dummyWo).docId
                rw [hord, horig]
              · show order.data.startDate = (wos.getD i dummyWo).data.startDate
                rw [hord, horig]
              · show order.data.endDate = (wos.getD i dummyWo).data.endDate
                rw [hord, horig]
              · show canonDS newStartT = (heapAt a3 i).data.startDate
                rw [hself3]
              · show canonDS newEndT = (heapAt a3 i).data.endDate
                rw [hself3]
          · rename_i hnc
            subst hok
            apply cinv_place hc hnp hkey
            · exact hsched3
            · exact hhne3
            · intro c hcm
              rw [hchg3]
              exact hcm
            · intro hm hd
              exfalso
              have hb : (order.data.startDate.repr == (canonDS newStartT).repr) = true ∧
                  (order.data.endDate.repr == (canonDS newEndT).repr) = true := by
                rcases Bool.eq_false_or_eq_true
                    (order.data.startDate.repr == (canonDS newStartT).repr) with h1 | h1
                · rcases Bool.eq_false_or_eq_true
                      (order.data.endDate.repr == (canonDS newEndT).repr) with h2 | h2
                  · exact ⟨h1, h2⟩
                  · exfalso
                    apply hnc
                    rw [h2]
                    simp
                · exfalso
                  apply hnc
                  rw [h1]
                  rfl
              rw [hself3] at hd
              rcases hd with hd1 | hd1
              · apply hd1
                rw [← horig, ← hord]
                exact eq_of_beq hb.1
              · apply hd1
                rw [← horig, ← hord]
                exact eq_of_beq hb.2

theorem reflowStep_cinv {wcs : List WorkCenter} {wcSched : List (String × List Nat)}
    {wos : List WorkOrder} {st st2 : RState} {i : Nat} {q : Option (List Nat)}
    (hdi : DriverInv wos st) (hc : CInv wos st) (hi : i < wos.length)
    (hok : reflowStep wcs wcSched i st = .ok (st2, q)) : CInv wos st2 := by
  have hek := ensureKey_cinv hc (heapAt st i).data.workCenterId
  have hekdi := ensureKey_inv hdi (heapAt st i).data.workCenterId
  have hekheap : (ensureKey st (heapAt st i).data.workCenterId).heap = st.heap :=
    ensureKey_heap st _
  have hordk : heapAt (ensureKey st (heapAt st i).data.workCenterId) i = heapAt st i :=
    congrArg (fun h => h.getD i dummyWo) hekheap
  simp only [reflowStep] at hok
  split at hok
  · simp only [Except.ok.injEq, Prod.mk.injEq] at hok
    rw [← hok.1]
    exact hek
  · rename_i hguard
    split at hok
    · cases hok
    · rename_i unproc hcol
      split at hok
      · simp only [Except.ok.injEq, Prod.mk.injEq] at hok
        rw [← hok.1]
        exact hek
      · split at hok
        · rename_i hmaint
          simp only [Except.ok.injEq, Prod.mk.injEq] at hok
          rw [← hok.1]
          apply addToWorkCenterSchedule_cinv hek
          intro hm _
          rw [hordk, hmaint] at hm
          cases hm
        · split at hok
          · cases hok
          · rename_i st4 hplace
            simp only [Except.ok.injEq, Prod.mk.injEq] at hok
            rw [← hok.1]
            rw [Bool.not_eq_true] at hguard
            refine placeOrder_cinv hekdi hek hi hordk.symm ?_ hguard
              (ensureKey_finds st (heapAt st i).data.workCenterId) hplace
            rw [hordk]

theorem reflowLoop_cinv {wcs : List WorkCenter} {wcSched : List (String × List Nat)}
    {wos : List WorkOrder} :
    ∀ (fuel : Nat) (q : List Nat) (st stF : RState) (capped : Bool),
      DriverInv wos st → CInv wos st → (∀ j ∈ q, j < wos.length) →
      reflowLoop wcs wcSched fuel q st = .ok (stF, capped) → CInv wos stF := by
  intro fuel
  induction fuel with
  | zero =>
    intro q st stF capped _ hc _ hok
    simp only [reflowLoop, Except.ok.injEq, Prod.mk.injEq] at hok
    rw [← hok.1]
    exact hc
  | succ n ih =>
    intro q st stF capped hdi hc hq hok
    cases q with
    | nil =>
      simp only [reflowLoop, Except.ok.injEq, Prod.mk.injEq] at hok
      rw [← hok.1]
      exact hc
    | cons i rest =>
      have hi : i < wos.length := hq i (List.mem_cons_self i rest)
      simp only [reflowLoop] at hok
      split at hok
      · cases hok
      · rename_i st2 hstep
        exact ih rest st2 stF capped (reflowStep_inv hdi hi hstep).1
          (reflowStep_cinv hdi hc hi hstep)
          (fun j hj => hq j (List.mem_cons_of_mem i hj)) hok
      · rename_i st2 unproc hstep
        have hstep2 := reflowStep_inv hdi hi hstep
        apply ih (unproc ++ rest ++ [i]) st2 stF capped hstep2.1
          (reflowStep_cinv hdi hc hi hstep) _ hok
        intro j hj
        simp only [List.mem_append, List.mem_singleton] at hj
        cases hj with
        | inl hj2 =>
          cases hj2 with
          | inl hju => exact hstep2.2 unproc rfl j hju
          | inr hjr => exact hq j (List.mem_cons_of_mem i hjr)
        | inr hji =>
          subst hji
          exact hi

/-- Case analysis of a returned reflow outcome carrying both driver
invariants: either one of the early returns with an empty schedule, or the
final return built from a loop state satisfying both. -/
theorem reflow_final_cinv {wcs : List WorkCenter} {wos : List WorkOrder}
    {r : ReflowResult} (h : reflow wcs wos = .ok r) :
    (r.updatedWorkOrders = [] ∧ r.changes = []) ∨
    (∃ stF, DriverInv wos stF ∧ CInv wos stF ∧
      r.updatedWorkOrders = resolveSchedule stF ∧ r.changes = stF.changes) := by
  simp only [reflow] at h
  split at h
  · cases h
    left
    exact ⟨rfl, rfl⟩
  · split at h
    · cases h
      left
      exact ⟨rfl, rfl⟩
    · split at h
      · cases h
      · rename_i stF capped hloop
        have hinv : DriverInv wos stF := by
          apply reflowLoop_inv (wos.length * 100) (List.range wos.length)
            ⟨wos, [], []⟩ stF capped (driverInv_init wos) _ hloop
          intro j hj
          exact List.mem_range.1 hj
        have hcin : CInv wos stF := by
          apply reflowLoop_cinv (wos.length * 100) (List.range wos.length)
            ⟨wos, [], []⟩ stF capped (driverInv_init wos) (cinv_init wos) _ hloop
          intro j hj
          exact List.mem_range.1 hj
        split at h
        · cases h
          left
          exact ⟨rfl, rfl⟩
        · cases h
          right
          exact ⟨stF, hinv, hcin, rfl, rfl⟩

/-- C9 amended: the change log captures exactly the string-level date
rewrites (string comparison, which agrees with instant comparison only on
canonically serialised inputs, see the counterexample). Forward: every
logged entry has serialised strings that differ, carries
delayMinutes = max(0, newEnd - oldEnd) on instants, and refers to a
non-maintenance input order. Converse (ids unique): every non-maintenance
order of the returned schedule whose serialised start or end string differs
from its input object's owns a logged entry recording exactly that
rewrite. -/
theorem reflow_changes_delay_and_string_guard (wcs : List WorkCenter)
    (wos : List WorkOrder)
    (hnodup : (wos.map (fun wo => wo.docId)).Nodup) :
    (∀ c ∈ resultChanges (reflow wcs wos),
      (c.oldStart.repr ≠ c.newStart.repr ∨ c.oldEnd.repr ≠ c.newEnd.repr) ∧
      c.delayMinutes = max 0 (getMinutesDiff c.oldEnd.instant c.newEnd.instant) ∧
      ∃ wo, wo ∈ wos ∧ wo.docId = c.workOrderId ∧ wo.data.isMaintenance = false) ∧
    (∀ p ∈ resultUpdated (reflow wcs wos), ∀ o ∈ p.2,
      o.data.isMaintenance = false →
      ∀ w ∈ wos, w.docId = o.docId →
      (w.data.startDate.repr ≠ o.data.startDate.repr ∨
        w.data.endDate.repr ≠ o.data.endDate.repr) →
      ∃ c ∈ resultChanges (reflow wcs wos), c.workOrderId = o.docId ∧
        c.oldStart = w.data.startDate ∧ c.oldEnd = w.data.endDate ∧
        c.newStart = o.data.startDate ∧ c.newEnd = o.data.endDate) := by
  constructor
  · intro c hcm
    cases hout : reflow wcs wos with
    | error e =>
      simp only [resultChanges, hout] at hcm
      cases hcm
    | ok r =>
      simp only [resultChanges, hout] at hcm
      rcases reflow_final_cinv hout with ⟨_, hchg⟩ | ⟨stF, hinv, _, _, hchg⟩
      · rw [hchg] at hcm
        cases hcm
      · rw [hchg] at hcm
        obtain ⟨hrepr, hdelay, k2, hk2, hknm, hkid⟩ := hinv.2.2.2.2 c hcm
        exact ⟨hrepr, hdelay,
          wos.getD k2 dummyWo, getD_mem wos k2 dummyWo hk2, hkid.symm, hknm⟩
  · intro p hp o ho hm w hw hid hd
    cases hout : reflow wcs wos with
    | error e =>
      simp only [resultUpdated, hout] at hp
      cases hp
    | ok r =>
      simp only [resultUpdated, hout] at hp
      simp only [resultChanges, hout]
      rcases reflow_final_cinv hout with ⟨hupd, _⟩ | ⟨stF, hinv, hcin, hupd, hchg⟩
      · rw [hupd] at hp
        cases hp
      · rw [hupd] at hp
        simp only [resolveSchedule, List.mem_map] at hp
        obtain ⟨qq, hqq, hqe⟩ := hp
        subst hqe
        simp only [List.mem_map] at ho
        obtain ⟨j, hj, hje⟩ := ho
        have hsched := hinv.2.2.2.1 qq hqq j hj
        have hjlen : j < wos.length := hsched.1
        obtain ⟨jw, hjw, hjwe⟩ := List.mem_iff_getElem.1 hw
        have hjwd : wos.getD jw dummyWo = w := by
          simp [List.getD, List.getElem?_eq_getElem hjw, hjwe]
        have hdocj : (wos.getD j dummyWo).docId = o.docId := by
          rw [← hje]
          exact (hinv.2.1 j hjlen).1.symm
        have hjeq : jw = j := by
          apply docId_getD_inj hnodup hjw hjlen
          rw [hjwd, hid, ← hdocj]
        have hwj : wos.getD j dummyWo = w := by
          rw [← hjeq]
          exact hjwd
        have hmj : (heapAt stF j).data.isMaintenance = false := by
          rw [hje]
          exact hm
        have hdj : (wos.getD j dummyWo).data.startDate.repr ≠
              (heapAt stF j).data.startDate.repr ∨
            (wos.getD j dummyWo).data.endDate.repr ≠
              (heapAt stF j).data.endDate.repr := by
          rw [hje, hwj]
          exact hd
        obtain ⟨c, hcm, f1, f2, f3, f4, f5⟩ := hcin.2.2 qq hqq j hj hmj hdj
        rw [hchg]
        refine ⟨c, hcm, ?_, ?_, ?_, ?_, ?_⟩
        · rw [f1, hwj, hid]
        · rw [f2, hwj]
        · rw [f3, hwj]
        · rw [f4, hje]
        · rw [f5, hje]

/-- C9 amended witness: applied to the non-canonically spelled zero-duration
order on the Mon-Fri machine (unique ids hold). -/
theorem reflow_changes_delay_and_string_guard_witness :
    (∀ c ∈ resultChanges (reflow [wcMachine] [woNonCanon]),
      (c.oldStart.repr ≠ c.newStart.repr ∨ c.oldEnd.repr ≠ c.newEnd.repr) ∧
      c.delayMinutes = max 0 (getMinutesDiff c.oldEnd.instant c.newEnd.instant) ∧
      ∃ wo, wo ∈ [woNonCanon] ∧ wo.docId = c.workOrderId ∧
        wo.data.isMaintenance = false) ∧
    (∀ p ∈ resultUpdated (reflow [wcMachine] [woNonCanon]), ∀ o ∈ p.2,
      o.data.isMaintenance = false →
      ∀ w ∈ [woNonCanon], w.docId = o.docId →
      (w.data.startDate.repr ≠ o.data.startDate.repr ∨
        w.data.endDate.repr ≠ o.data.endDate.repr) →
      ∃ c ∈ resultChanges (reflow [wcMachine] [woNonCanon]), c.workOrderId = o.docId ∧
        c.oldStart = w.data.startDate ∧ c.oldEnd = w.data.endDate ∧
        c.newStart = o.data.startDate ∧ c.newEnd = o.data.endDate) :=
  reflow_changes_delay_and_string_guard [wcMachine] [woNonCanon] (by decide)

end NaoErp
